import Mathlib

/-!
Verification of the LinkedList bid-manager repository.

The Record Store (`class LinkedList` in `src/LinkedList.cpp`) is embedded as a
heap arena: C++ `new` allocates the next index of a growing cell list, `delete`
clears a cell, and `Node*` pointers become `Option Nat` addresses.  The
operations below are line-by-line translations of `Append`, `Prepend`,
`Remove`, `Search`, `PrintList` (as `Traverse`, collecting the visited bids in
order) and `Size`, together with the bool-returning `Remove`, the
pointer-returning `Search` and `Contains` of the mirrored test class in the
unit-test file.  The C++ `int size` counter is modelled as an unbounded `Int`,
and the `double amount` as `ℚ` (every amount in the claims is a dyadic
rational, exactly representable in an IEEE double).

The CSV engine (`CSVparser.hpp` / `CSVparser.cpp`) is declared and called by
the sources but its implementation is not under `src/`; the Field Tokenizer
and Document Model are therefore modelled from the specification (sections
4.1, 4.2 and 6), as marked on each such definition.
-/

namespace BidApp

/-- Bid record from `struct Bid` in `src/LinkedList.cpp`: identifier, title,
fund tag and monetary amount (C++ `double`, modelled as `ℚ`). -/
structure Bid where
  bidId : String
  title : String
  fund  : String
  amount : ℚ
deriving DecidableEq

/-- Default-constructed `Bid{}`: empty strings and amount `0.0`; the
not-found sentinel returned by `LinkedList::Search`. -/
def emptyBid : Bid := { bidId := "", title := "", fund := "", amount := 0 }

/-- List node from `LinkedList::Node`: one bid plus the successor pointer
(`nullptr` is `none`, a live node's address is `some a`). -/
structure Node where
  bid : Bid
  next : Option Nat
deriving DecidableEq

/-- State of a `LinkedList` object together with the arena of heap cells it
allocated: `cells` indexed by address, `none` marking a freed cell, plus the
`head`, `tail` and `size` members of the C++ class. -/
structure LL where
  cells : List (Option Node)
  head : Option Nat
  tail : Option Nat
  size : Int
deriving DecidableEq

/-- State built by the default constructor `LinkedList()`. -/
def LL.empty : LL := { cells := [], head := none, tail := none, size := 0 }

/-- Dereference a node pointer: `some nd` when address `a` holds a live node. -/
def getCell (cells : List (Option Node)) (a : Nat) : Option Node :=
  (cells[a]?).join

/-- Assignment `a->next = nxt`.  If `a` is not a live cell the write is a
null/dangling dereference in C++; the model leaves the arena unchanged there
(that branch is unreachable from valid states). -/
def setNext (cells : List (Option Node)) (a : Nat) (nxt : Option Nat) :
    List (Option Node) :=
  match getCell cells a with
  | some nd => cells.set a (some { nd with next := nxt })
  | none => cells

/-- Translation of `LinkedList::Append`: allocate a node holding the bid; if
the list is empty set both head and tail to it, otherwise link it after the
current tail and advance tail; increment the size counter. -/
def LL.Append (l : LL) (b : Bid) : LL :=
  let m := l.cells.length
  let cells1 := l.cells ++ [some { bid := b, next := none }]
  match l.head with
  | none => { cells := cells1, head := some m, tail := some m, size := l.size + 1 }
  | some _ =>
    match l.tail with
    | some t =>
        { cells := setNext cells1 t (some m), head := l.head, tail := some m,
          size := l.size + 1 }
    | none =>
        -- head non-null with tail null never occurs from the public interface;
        -- in C++ `tail->next = newNode` would dereference null here
        { cells := cells1, head := l.head, tail := some m, size := l.size + 1 }

/-- Translation of `LinkedList::Prepend`: allocate a node; if the list is
empty set both head and tail to it, otherwise point its `next` at the current
head and move head to it; increment the size counter. -/
def LL.Prepend (l : LL) (b : Bid) : LL :=
  let m := l.cells.length
  match l.head with
  | none =>
      { cells := l.cells ++ [some { bid := b, next := none }],
        head := some m, tail := some m, size := l.size + 1 }
  | some h =>
      { cells := l.cells ++ [some { bid := b, next := some h }],
        head := some m, tail := l.tail, size := l.size + 1 }

/-- Translation of the `Prepend` of the mirrored test class, which always
writes `newNode->next = head`, moves head, and sets tail only when it was
null.  Behaviourally equal to `LL.Prepend`. -/
def LL.PrependT (l : LL) (b : Bid) : LL :=
  let m := l.cells.length
  { cells := l.cells ++ [some { bid := b, next := l.head }],
    head := some m,
    tail := match l.tail with
            | none => some m
            | some t => some t,
    size := l.size + 1 }

/-- Inner loop of `LinkedList::Remove` (identical in the main class and the
test mirror): walk from `cur` while `current->next` is non-null; at the first
successor whose bid id matches, bypass it, retarget `tail` if the removed node
was the tail (pointer comparison `temp == tail`), and free it.  Returns the
updated arena and tail on a removal, `none` when the walk ends without a
match.  `fuel` bounds the walk (it never runs out on a valid state). -/
def removeGo (cells : List (Option Node)) (tail : Option Nat) (bidId : String) :
    Nat → Nat → Option (List (Option Node) × Option Nat)
  | 0, _ => none
  | fuel + 1, cur =>
    match getCell cells cur with
    | none => none
    | some cnd =>
      match cnd.next with
      | none => none
      | some nx =>
        match getCell cells nx with
        | none => none
        | some nnd =>
          if nnd.bid.bidId = bidId then
            some ((setNext cells cur nnd.next).set nx none,
                  if tail = some nx then some cur else tail)
          else
            removeGo cells tail bidId fuel nx

/-- Translation of the bool-returning `Remove` of the mirrored test class:
empty list returns `false`; a matching head is unlinked and freed (clearing
tail when the list becomes empty) returning `true`; otherwise the walk of
`removeGo` either unlinks the first interior match (`true`) or finds none
(`false`).  The size counter is decremented exactly on a removal. -/
def LL.RemoveT (l : LL) (bidId : String) : LL × Bool :=
  match l.head with
  | none => (l, false)
  | some h =>
    match getCell l.cells h with
    | none => (l, false)  -- dangling head: unreachable from valid states
    | some hnd =>
      if hnd.bid.bidId = bidId then
        ({ cells := l.cells.set h none,
           head := hnd.next,
           tail := match hnd.next with
                   | none => none
                   | some _ => l.tail,
           size := l.size - 1 }, true)
      else
        match removeGo l.cells l.tail bidId l.cells.length h with
        | none => (l, false)
        | some (cells2, tail2) =>
            ({ cells := cells2, head := l.head, tail := tail2,
               size := l.size - 1 }, true)

/-- Translation of the void `LinkedList::Remove` of `src/LinkedList.cpp`:
exactly the state change of `LL.RemoveT` with the boolean discarded. -/
def LL.Remove (l : LL) (bidId : String) : LL :=
  match l.head with
  | none => l
  | some h =>
    match getCell l.cells h with
    | none => l  -- dangling head: unreachable from valid states
    | some hnd =>
      if hnd.bid.bidId = bidId then
        { cells := l.cells.set h none,
          head := hnd.next,
          tail := match hnd.next with
                  | none => none
                  | some _ => l.tail,
          size := l.size - 1 }
      else
        match removeGo l.cells l.tail bidId l.cells.length h with
        | none => l
        | some (cells2, tail2) =>
            { cells := cells2, head := l.head, tail := tail2,
              size := l.size - 1 }

/-- Loop of `LinkedList::Search` after the head check: walk the successor
pointers returning the first bid whose id matches, `Bid{}` at the end of the
list.  `fuel` bounds the walk. -/
def searchGo (cells : List (Option Node)) (bidId : String) :
    Nat → Option Nat → Bid
  | _, none => emptyBid
  | 0, some _ => emptyBid
  | fuel + 1, some a =>
    match getCell cells a with
    | none => emptyBid
    | some nd =>
      if nd.bid.bidId = bidId then nd.bid else searchGo cells bidId fuel nd.next

/-- Translation of `LinkedList::Search`: if the head exists and matches,
return its bid; otherwise walk from `head->next`; return `Bid{}` when no node
matches. -/
def LL.Search (l : LL) (bidId : String) : Bid :=
  match l.head with
  | none => emptyBid
  | some h =>
    match getCell l.cells h with
    | none => emptyBid  -- dangling head: unreachable from valid states
    | some hnd =>
      if hnd.bid.bidId = bidId then hnd.bid
      else searchGo l.cells bidId l.cells.length hnd.next

/-- Loop of the pointer-returning `Search` of the mirrored test class: address
of the first node whose bid id matches, `none` (null pointer) otherwise. -/
def searchTGo (cells : List (Option Node)) (bidId : String) :
    Nat → Option Nat → Option Nat
  | _, none => none
  | 0, some _ => none
  | fuel + 1, some a =>
    match getCell cells a with
    | none => none
    | some nd =>
      if nd.bid.bidId = bidId then some a else searchTGo cells bidId fuel nd.next

/-- Translation of the `Bid* Search` of the mirrored test class. -/
def LL.SearchT (l : LL) (bidId : String) : Option Nat :=
  searchTGo l.cells bidId l.cells.length l.head

/-- Translation of `Contains` of the mirrored test class:
`Search(bidId) != nullptr`. -/
def LL.Contains (l : LL) (bidId : String) : Bool :=
  (l.SearchT bidId).isSome

/-- Visit order of `LinkedList::PrintList`: the bids handed to `displayBid`
while walking from head to the end of the list, also the `Traverse()`
sequence of the specification.  `fuel` bounds the walk. -/
def traverseGo (cells : List (Option Node)) :
    Nat → Option Nat → List Bid
  | _, none => []
  | 0, some _ => []
  | fuel + 1, some a =>
    match getCell cells a with
    | none => []
    | some nd => nd.bid :: traverseGo cells fuel nd.next

/-- Head-to-tail traversal of the store (the `PrintList` visit order). -/
def LL.Traverse (l : LL) : List Bid :=
  traverseGo l.cells l.cells.length l.head

/-- Translation of `LinkedList::Size`: the stored counter. -/
def LL.Size (l : LL) : Int := l.size

/-- Chain predicate: `isChain cells p elems` holds when following successor
pointers from `p` visits exactly the addresses and bids listed in `elems`, in
order, ending at a null pointer. -/
def isChain (cells : List (Option Node)) :
    Option Nat → List (Nat × Bid) → Bool
  | none, [] => true
  | some a, e :: rest =>
    decide (a = e.1) &&
      (match getCell cells a with
       | some nd => decide (nd.bid = e.2) && isChain cells nd.next rest
       | none => false)
  | none, _ :: _ => false
  | some _, [] => false

/-- Representation invariant of a store: the nodes reachable from `head` are
exactly `elems`, the size counter equals their number, and `tail` is the last
reachable address (`none` on the empty store). -/
def Inv (l : LL) (elems : List (Nat × Bid)) : Prop :=
  isChain l.cells l.head elems = true ∧
  l.size = (elems.length : Int) ∧
  l.tail = (elems.map Prod.fst).getLast?

instance (l : LL) (elems : List (Nat × Bid)) : Decidable (Inv l elems) :=
  inferInstanceAs (Decidable (isChain l.cells l.head elems = true ∧
    l.size = (elems.length : Int) ∧
    l.tail = (elems.map Prod.fst).getLast?))

/-- States reachable from the empty store through the public mutating
interface (`Append`, `Prepend`, `Remove`). -/
inductive Reachable : LL → Prop
  | empty : Reachable LL.empty
  | append {l} (b : Bid) : Reachable l → Reachable (l.Append b)
  | prepend {l} (b : Bid) : Reachable l → Reachable (l.Prepend b)
  | remove {l} (bidId : String) : Reachable l → Reachable (l.Remove bidId)

/-- Insertion operations for the order claim: an `Append` or a `Prepend`. -/
inductive InsOp
  | app (b : Bid)
  | pre (b : Bid)

/-- Run a sequence of insertion operations on a store. -/
def runIns (l : LL) : List InsOp → LL
  | [] => l
  | InsOp.app b :: ops => runIns (l.Append b) ops
  | InsOp.pre b :: ops => runIns (l.Prepend b) ops

/-- Insertion order stated by the specification, as a second definition
written from the spec's words for the refinement claim: `Append` places the
record after every record already present, `Prepend` before every record
already present. -/
def specIns (m : List Bid) : List InsOp → List Bid
  | [] => m
  | InsOp.app b :: ops => specIns (m ++ [b]) ops
  | InsOp.pre b :: ops => specIns (b :: m) ops

/-- Abstract effect of `Remove`: drop the first element whose bid id
matches. -/
def removeFirst (bidId : String) : List (Nat × Bid) → List (Nat × Bid)
  | [] => []
  | e :: rest =>
    if e.2.bidId = bidId then rest else e :: removeFirst bidId rest

/-- True when some listed bid has the given id. -/
def hasMatch (bidId : String) (elems : List (Nat × Bid)) : Bool :=
  elems.any (fun e => e.2.bidId = bidId)

/-- Number of listed bids with the given id. -/
def countMatches (bidId : String) (elems : List (Nat × Bid)) : Nat :=
  elems.countP (fun e => decide (e.2.bidId = bidId))

/-- Address of the first node of a chain segment (`none` for the empty
segment). -/
def headAddr (l : List (Nat × Bid)) : Option Nat :=
  (l.map Prod.fst).head?

/-- Address of the last node of `cur :: r1`: the node holding the `current`
pointer when the walk of `removeGo` has passed `r1`. -/
def lastAddr (cur : Nat) (r1 : List (Nat × Bid)) : Nat :=
  ((r1.map Prod.fst).getLast?).getD cur

/-- Concrete bid used to exercise the operations. -/
def sampleBid1 : Bid := { bidId := "001", title := "First", fund := "GEN", amount := 10 }

/-- Concrete bid used to exercise the operations. -/
def sampleBid2 : Bid := { bidId := "002", title := "Second", fund := "CAP", amount := 20 }

/-- Concrete bid with an empty identifier (the sentinel value), insertable
through `Append` because the store never validates identifiers. -/
def ghostBid : Bid := { bidId := "", title := "Ghost", fund := "GEN", amount := 5 }

/-- First of two distinct bids sharing the identifier "001". -/
def dupA : Bid := { bidId := "001", title := "DupA", fund := "GEN", amount := 1 }

/-- Second of two distinct bids sharing the identifier "001". -/
def dupB : Bid := { bidId := "001", title := "DupB", fund := "GEN", amount := 2 }

/-- One-element store built through the public interface. -/
def store1 : LL := LL.empty.Append sampleBid1

/-- Two-element store built through the public interface. -/
def store2 : LL := store1.Append sampleBid2

/-- Store holding two records with the same identifier, built through the
public interface. -/
def dupStore : LL := (LL.empty.Append dupA).Append dupB

/-- Store holding a record whose identifier is the empty string. -/
def ghostStore : LL := LL.empty.Append ghostBid

end BidApp

namespace Csv

/-- Modelled from the spec: scanner state of the Field Tokenizer of section
4.1, whose implementation (`CSVparser.cpp`) is not under `src/`.  `start` is
the beginning of a field, `unq` inside an unquoted field, `quo` inside a
quoted region, `qq` directly after a quote character seen inside a quoted
region (a second quote is the doubling escape, anything else closed the
region), `tl` after the closing quote (trailing characters are literal). -/
inductive TokMode
  | start
  | unq
  | quo
  | qq
  | tl
deriving DecidableEq

/-- Modelled from the spec: one left-to-right scan of the Field Tokenizer
(section 4.1).  `cur` is the current field reversed, `acc` the finished fields
reversed; the result is `none` exactly when the line ends inside an unclosed
quoted region (a malformed row). -/
def tokAux (delim : Char) :
    TokMode → List Char → List String → List Char → Option (List String)
  | TokMode.quo, _, _, [] => none
  | TokMode.start, cur, acc, [] => some ((cur.reverse.asString :: acc).reverse)
  | TokMode.unq, cur, acc, [] => some ((cur.reverse.asString :: acc).reverse)
  | TokMode.qq, cur, acc, [] => some ((cur.reverse.asString :: acc).reverse)
  | TokMode.tl, cur, acc, [] => some ((cur.reverse.asString :: acc).reverse)
  | TokMode.start, cur, acc, c :: rest =>
    if c = '"' then tokAux delim TokMode.quo cur acc rest
    else if c = delim then
      tokAux delim TokMode.start [] (cur.reverse.asString :: acc) rest
    else tokAux delim TokMode.unq (c :: cur) acc rest
  | TokMode.unq, cur, acc, c :: rest =>
    if c = delim then
      tokAux delim TokMode.start [] (cur.reverse.asString :: acc) rest
    else tokAux delim TokMode.unq (c :: cur) acc rest
  | TokMode.quo, cur, acc, c :: rest =>
    if c = '"' then tokAux delim TokMode.qq cur acc rest
    else tokAux delim TokMode.quo (c :: cur) acc rest
  | TokMode.qq, cur, acc, c :: rest =>
    if c = '"' then tokAux delim TokMode.quo ('"' :: cur) acc rest
    else if c = delim then
      tokAux delim TokMode.start [] (cur.reverse.asString :: acc) rest
    else tokAux delim TokMode.tl (c :: cur) acc rest
  | TokMode.tl, cur, acc, c :: rest =>
    if c = delim then
      tokAux delim TokMode.start [] (cur.reverse.asString :: acc) rest
    else tokAux delim TokMode.tl (c :: cur) acc rest

/-- Modelled from the spec: the Field Tokenizer on one line of text;
`none` marks a malformed row (line ending inside a quoted region). -/
def tokenizeLine (delim : Char) (line : String) : Option (List String) :=
  tokAux delim TokMode.start [] [] line.toList

/-- Modelled from the spec: the Document Model's parsed header plus data
rows (section 4.2). -/
structure DocModel where
  header : List String
  rows : List (List String)
deriving DecidableEq

/-- Modelled from the spec: the error taxonomy of section 7 relevant to
loading — a path that cannot be opened, or a malformed line carrying its
number and raw text. -/
inductive LoadError
  | fileError
  | parseError (lineNo : Nat) (raw : String)
deriving DecidableEq

/-- Modelled from the spec: parse the data lines of a file, numbering lines
from `lineNo`, skipping fully blank lines, failing on the first malformed
line with its line number and raw text. -/
def loadRows (delim : Char) : Nat → List String → Except LoadError (List (List String))
  | _, [] => .ok []
  | lineNo, line :: rest =>
    if line = "" then loadRows delim (lineNo + 1) rest
    else
      match tokenizeLine delim line with
      | none => .error (.parseError lineNo line)
      | some fs => (loadRows delim (lineNo + 1) rest).map (fs :: ·)

/-- Modelled from the spec: `Load` of the Document Model (section 4.2).  A
file is a list of lines once opened (`none` is an unopenable path; the line
separator style is the whitespace normalization the tokenizer does not
preserve).  The first line is the header, remaining non-blank lines are data
rows; any failure returns the error with no partial model. -/
def Load (delim : Char) (file : Option (List String)) :
    Except LoadError DocModel :=
  match file with
  | none => .error .fileError
  | some [] => .error .fileError
  | some (h :: rest) =>
    match tokenizeLine delim h with
    | none => .error (.parseError 1 h)
    | some hdr => (loadRows delim 2 rest).map (fun rs => { header := hdr, rows := rs })

/-- Modelled from the spec: a field must be re-quoted when it contains the
delimiter, a quote character, or a newline (section 4.2). -/
def needsQuote (delim : Char) (f : List Char) : Bool :=
  f.any (fun c => c = delim || c = '"' || c = '\n')

/-- Modelled from the spec: quote-escape a field, doubling internal quote
characters. -/
def escapeChars (f : List Char) : List Char :=
  f.flatMap (fun c => if c = '"' then ['"', '"'] else [c])

/-- Modelled from the spec: render one field, re-quoting when required. -/
def serializeFieldChars (delim : Char) (f : List Char) : List Char :=
  if needsQuote delim f then '"' :: escapeChars f ++ ['"'] else f

/-- Modelled from the spec: render one row, separating fields with the
delimiter. -/
def serializeRowChars (delim : Char) : List (List Char) → List Char
  | [] => []
  | [f] => serializeFieldChars delim f
  | f :: g :: rest =>
    serializeFieldChars delim f ++ delim :: serializeRowChars delim (g :: rest)

/-- Modelled from the spec: render one row of string fields as a line. -/
def serializeRow (delim : Char) (r : List String) : String :=
  (serializeRowChars delim (r.map String.toList)).asString

/-- Modelled from the spec: `Serialize` of the Document Model — the header
line followed by one line per data row. -/
def Serialize (delim : Char) (m : DocModel) : List String :=
  serializeRow delim m.header :: m.rows.map (serializeRow delim)

/-- Record-to-column mapping of section 6: four column indices plus one
stripped currency character, supplied to the loader as plain configuration. -/
structure LoadCfg where
  idCol : Nat
  titleCol : Nat
  fundCol : Nat
  amountCol : Nat
  stripChar : Char

/-- Value of a digit run, most significant first. -/
def digitsVal (ds : List Char) : Nat :=
  ds.foldl (fun a c => a * 10 + (c.toNat - 48)) 0

/-- Modelled from the spec: the C library `atof` on the plain decimal
numerals the loader meets — skip leading blanks, optional sign, integer
digits, optional fraction digits, trailing characters ignored; the value is
returned exactly as a rational. -/
def parseDouble (s : String) : ℚ :=
  let l := s.toList.dropWhile (fun c => c = ' ' || c = '\t')
  let signAndRest : Int × List Char :=
    match l with
    | '-' :: r => (-1, r)
    | '+' :: r => (1, r)
    | _ => (1, l)
  let intDs := signAndRest.2.takeWhile Char.isDigit
  let rest1 := signAndRest.2.dropWhile Char.isDigit
  let fracDs :=
    match rest1 with
    | '.' :: r => r.takeWhile Char.isDigit
    | _ => []
  mkRat (signAndRest.1 *
      (digitsVal intDs * 10 ^ fracDs.length + digitsVal fracDs))
    (10 ^ fracDs.length)

/-- Translation of `strToDouble` in `src/LinkedList.cpp`: erase every
occurrence of the stripped character, then convert with `atof`. -/
def strToDouble (str : String) (ch : Char) : ℚ :=
  parseDouble ((str.toList.filter (fun c => ¬ c = ch)).asString)

/-- Modelled from the spec: map one Document Model row to a record through
the configured column indices and strip character (section 6; the loader
`loadBids` in `src/LinkedList.cpp` instantiates this mapping at columns
1/0/8/4 with `'$'`). -/
def mapRow (cfg : LoadCfg) (row : List String) : BidApp.Bid :=
  { bidId := (row[cfg.idCol]?).getD "",
    title := (row[cfg.titleCol]?).getD "",
    fund := (row[cfg.fundCol]?).getD "",
    amount := strToDouble ((row[cfg.amountCol]?).getD "") cfg.stripChar }

/-- Modelled from the spec plus `loadBids` in `src/LinkedList.cpp`: load a
file into a Record Store by appending one mapped record per row; any load
failure is returned to the caller, leaving the caller's store untouched. -/
def loadRecords (cfg : LoadCfg) (file : Option (List String)) (l : BidApp.LL) :
    Except LoadError BidApp.LL :=
  match Load ',' file with
  | .error e => .error e
  | .ok m => .ok (m.rows.foldl (fun acc row => acc.Append (mapRow cfg row)) l)

/-- Column mapping of the loading scenario: identifier at column 1, title at
column 0, tag at column 2, amount at column 3, stripping a dollar sign. -/
def sampleCfg : LoadCfg :=
  { idCol := 1, titleCol := 0, fundCol := 2, amountCol := 3, stripChar := '$' }

/-- Same mapping with the identifier and title columns exchanged, to show the
mapping is honored as configuration. -/
def swappedCfg : LoadCfg :=
  { idCol := 0, titleCol := 1, fundCol := 2, amountCol := 3, stripChar := '$' }

/-- Three-line file of the loading scenario: a header, one data row, and one
blank line (skipped by the Document Model). -/
def roadworkFile : List String :=
  ["title,id,fund,amount", "Roadwork,98109,GEN,$1200.50", ""]

end Csv

namespace BidApp

theorem getCell_lt {cells : List (Option Node)} {a : Nat} {nd : Node}
    (h : getCell cells a = some nd) : a < cells.length := by
  by_contra hge
  rw [getCell, List.getElem?_eq_none (Nat.le_of_not_lt hge)] at h
  simp [Option.join] at h

theorem getCell_append_left {cells l2 : List (Option Node)} {a : Nat}
    (h : a < cells.length) : getCell (cells ++ l2) a = getCell cells a := by
  simp [getCell, List.getElem?_append, h]

theorem getCell_append_self {cells : List (Option Node)} {x : Option Node} :
    getCell (cells ++ [x]) cells.length = x := by
  simp [getCell, List.getElem?_append]

theorem getCell_set_ne {cells : List (Option Node)} {v : Option Node}
    {a b : Nat} (h : b ≠ a) : getCell (cells.set b v) a = getCell cells a := by
  simp [getCell, List.getElem?_set_ne h]

theorem getCell_set_self {cells : List (Option Node)} {v : Option Node}
    {b : Nat} (h : b < cells.length) : getCell (cells.set b v) b = v := by
  simp [getCell, List.getElem?_set_self h]

theorem setNext_of_get {cells : List (Option Node)} {a : Nat} {nd : Node}
    (h : getCell cells a = some nd) (nxt : Option Nat) :
    setNext cells a nxt = cells.set a (some { nd with next := nxt }) := by
  rw [setNext, h]

theorem isChain_none_iff {cells : List (Option Node)}
    {elems : List (Nat × Bid)} :
    isChain cells none elems = true ↔ elems = [] := by
  cases elems <;> simp [isChain]

theorem isChain_some_nil {cells : List (Option Node)} {a : Nat} :
    isChain cells (some a) [] = false := by
  simp [isChain]

theorem isChain_cons_iff {cells : List (Option Node)} {a : Nat}
    {e : Nat × Bid} {rest : List (Nat × Bid)} :
    isChain cells (some a) (e :: rest) = true ↔
      a = e.1 ∧ ∃ nd, getCell cells a = some nd ∧ nd.bid = e.2 ∧
        isChain cells nd.next rest = true := by
  cases h : getCell cells a <;> simp [isChain, h]

theorem isChain_headAddr {cells : List (Option Node)} {p : Option Nat}
    {elems : List (Nat × Bid)} (h : isChain cells p elems = true) :
    p = headAddr elems := by
  cases p with
  | none => rw [isChain_none_iff] at h; subst h; rfl
  | some a =>
    cases elems with
    | nil => rw [isChain_some_nil] at h; cases h
    | cons e rest =>
      obtain ⟨ha, -⟩ := isChain_cons_iff.mp h
      simp [headAddr, ha]

theorem isChain_lt {cells : List (Option Node)} {p : Option Nat}
    {elems : List (Nat × Bid)} (h : isChain cells p elems = true) :
    ∀ e ∈ elems, e.1 < cells.length := by
  induction elems generalizing p with
  | nil => simp
  | cons e rest ih =>
    cases p with
    | none => rw [isChain_none_iff] at h; cases h
    | some a =>
      obtain ⟨ha, nd, hget, -, hrest⟩ := isChain_cons_iff.mp h
      intro x hx
      rcases List.mem_cons.mp hx with hx | hx
      · subst hx; exact ha ▸ getCell_lt hget
      · exact ih hrest x hx

theorem isChain_mem_get {cells : List (Option Node)} {p : Option Nat}
    {elems : List (Nat × Bid)} (h : isChain cells p elems = true) :
    ∀ e ∈ elems, ∃ nd, getCell cells e.1 = some nd ∧ nd.bid = e.2 := by
  induction elems generalizing p with
  | nil => simp
  | cons f rest ih =>
    cases p with
    | none => rw [isChain_none_iff] at h; cases h
    | some a =>
      obtain ⟨ha, nd, hget, hbid, hrest⟩ := isChain_cons_iff.mp h
      intro e he
      rcases List.mem_cons.mp he with he | he
      · subst he; exact ⟨nd, ha ▸ hget, hbid⟩
      · exact ih hrest e he

theorem isChain_append_cells {cells l2 : List (Option Node)} {p : Option Nat}
    {elems : List (Nat × Bid)} (h : isChain cells p elems = true) :
    isChain (cells ++ l2) p elems = true := by
  induction elems generalizing p with
  | nil =>
    cases p with
    | none => rfl
    | some a => rw [isChain_some_nil] at h; cases h
  | cons e rest ih =>
    cases p with
    | none => rw [isChain_none_iff] at h; cases h
    | some a =>
      obtain ⟨ha, nd, hget, hbid, hrest⟩ := isChain_cons_iff.mp h
      exact isChain_cons_iff.mpr
        ⟨ha, nd, (getCell_append_left (getCell_lt hget)).trans hget, hbid, ih hrest⟩

theorem isChain_set_outside {cells : List (Option Node)} {p : Option Nat}
    {elems : List (Nat × Bid)} {b : Nat} {v : Option Node}
    (h : isChain cells p elems = true) (hb : ∀ e ∈ elems, e.1 ≠ b) :
    isChain (cells.set b v) p elems = true := by
  induction elems generalizing p with
  | nil =>
    cases p with
    | none => rfl
    | some a => rw [isChain_some_nil] at h; cases h
  | cons e rest ih =>
    cases p with
    | none => rw [isChain_none_iff] at h; cases h
    | some a =>
      obtain ⟨ha, nd, hget, hbid, hrest⟩ := isChain_cons_iff.mp h
      refine isChain_cons_iff.mpr
        ⟨ha, nd, ?_, hbid, ih hrest fun f hf => hb f (List.mem_cons_of_mem _ hf)⟩
      have hne : b ≠ a := fun hba =>
        hb e (List.mem_cons_self _ _) (hba.trans ha).symm
      rw [getCell_set_ne hne]
      exact hget

theorem isChain_det {cells : List (Option Node)} {p : Option Nat}
    {l1 l2 : List (Nat × Bid)} (h1 : isChain cells p l1 = true)
    (h2 : isChain cells p l2 = true) : l1 = l2 := by
  induction l1 generalizing p l2 with
  | nil =>
    cases p with
    | none => exact (isChain_none_iff.mp h2).symm
    | some a => rw [isChain_some_nil] at h1; cases h1
  | cons e rest ih =>
    cases p with
    | none => rw [isChain_none_iff] at h1; cases h1
    | some a =>
      obtain ⟨ha, nd, hget, hbid, hrest⟩ := isChain_cons_iff.mp h1
      cases l2 with
      | nil => rw [isChain_some_nil] at h2; cases h2
      | cons f rest2 =>
        obtain ⟨hf, nd2, hget2, hbid2, hrest2⟩ := isChain_cons_iff.mp h2
        have hnd : nd2 = nd := by
          rw [hget] at hget2; exact (Option.some_inj.mp hget2).symm
        subst hnd
        have hef : e = f := Prod.ext (ha ▸ hf) (hbid ▸ hbid2)
        rw [hef, ih hrest hrest2]

theorem isChain_chop {cells : List (Option Node)} {p : Option Nat}
    {l1 l2 : List (Nat × Bid)} {e : Nat × Bid}
    (h : isChain cells p (l1 ++ e :: l2) = true) :
    isChain cells (some e.1) (e :: l2) = true := by
  induction l1 generalizing p with
  | nil =>
    have hp := isChain_headAddr h
    simp [headAddr] at hp
    exact hp ▸ h
  | cons f l1' ih =>
    cases p with
    | none => rw [isChain_none_iff] at h; cases h
    | some a =>
      obtain ⟨-, nd, -, -, hrest⟩ := isChain_cons_iff.mp h
      exact ih hrest

theorem isChain_nodup {cells : List (Option Node)} {p : Option Nat}
    {elems : List (Nat × Bid)} (h : isChain cells p elems = true) :
    (elems.map Prod.fst).Nodup := by
  induction elems generalizing p with
  | nil => simp
  | cons e rest ih =>
    cases p with
    | none => rw [isChain_none_iff] at h; cases h
    | some a =>
      obtain ⟨ha, nd, hget, hbid, hrest⟩ := isChain_cons_iff.mp h
      rw [List.map_cons, List.nodup_cons]
      refine ⟨?_, ih hrest⟩
      intro hmem
      obtain ⟨f, hf, hfe⟩ := List.mem_map.mp hmem
      obtain ⟨s, t, hst⟩ := List.append_of_mem hf
      have hchop : isChain cells (some f.1) (f :: t) = true :=
        isChain_chop (hst ▸ hrest)
      have hfa : f.1 = a := hfe.trans ha.symm
      have hchop2 : isChain cells (some a) (f :: t) = true := hfa ▸ hchop
      have hdet := isChain_det h hchop2
      have hlen : rest.length = t.length := by
        have := congrArg List.length hdet
        simpa using this
      rw [hst] at hlen
      simp at hlen
      omega

theorem isChain_length_le {cells : List (Option Node)} {p : Option Nat}
    {elems : List (Nat × Bid)} (h : isChain cells p elems = true) :
    elems.length ≤ cells.length := by
  classical
  have hnd := isChain_nodup h
  have hlt := isChain_lt h
  have hsub : (elems.map Prod.fst).toFinset ⊆ Finset.range cells.length := by
    intro a ha
    rw [List.mem_toFinset] at ha
    obtain ⟨e, he, hea⟩ := List.mem_map.mp ha
    exact Finset.mem_range.mpr (hea ▸ hlt e he)
  have hcard := Finset.card_le_card hsub
  rw [Finset.card_range, List.toFinset_card_of_nodup hnd] at hcard
  simpa using hcard

theorem isChain_last {cells : List (Option Node)} {p : Option Nat}
    {l1 : List (Nat × Bid)} {t : Nat} {tb : Bid}
    (h : isChain cells p (l1 ++ [(t, tb)]) = true) :
    ∃ nd, getCell cells t = some nd ∧ nd.bid = tb ∧ nd.next = none := by
  have hchop := isChain_chop (e := (t, tb)) h
  obtain ⟨-, nd, hget, hbid, hnil⟩ := isChain_cons_iff.mp hchop
  refine ⟨nd, hget, hbid, ?_⟩
  cases hnx : nd.next with
  | none => rfl
  | some x => rw [hnx] at hnil; rw [isChain_some_nil] at hnil; cases hnil

theorem getLast?_map {α β : Type} (f : α → β) :
    ∀ l : List α, (l.map f).getLast? = (l.getLast?).map f
  | [] => rfl
  | [_] => rfl
  | a :: c :: l => by
    rw [List.map_cons, List.map_cons, List.getLast?_cons_cons,
      List.getLast?_cons_cons, ← List.map_cons f c l]
    exact getLast?_map f (c :: l)

theorem lastAddr_nil (cur : Nat) : lastAddr cur [] = cur := rfl

theorem lastAddr_cons (cur : Nat) (f : Nat × Bid) (r1 : List (Nat × Bid)) :
    lastAddr cur (f :: r1) = lastAddr f.1 r1 := by
  cases r1 with
  | nil => simp [lastAddr]
  | cons g r1' =>
    have hne : (g.1 :: r1'.map Prod.fst) ≠ [] := by simp
    obtain ⟨y, hy⟩ := Option.isSome_iff_exists.mp (List.getLast?_isSome.mpr hne)
    simp [lastAddr, List.getLast?_cons_cons, hy]

theorem lastAddr_mem (cur : Nat) (r1 : List (Nat × Bid)) :
    lastAddr cur r1 ∈ cur :: r1.map Prod.fst := by
  induction r1 generalizing cur with
  | nil => exact List.mem_cons_self _ _
  | cons f r1' ih =>
    rw [lastAddr_cons]
    exact List.mem_cons_of_mem cur (by simpa using ih f.1)

theorem headAddr_nil : headAddr [] = none := rfl

theorem headAddr_cons (e : Nat × Bid) (l : List (Nat × Bid)) :
    headAddr (e :: l) = some e.1 := rfl

theorem Inv_empty : Inv LL.empty [] := ⟨rfl, rfl, rfl⟩

theorem isChain_snoc_aux {cells : List (Option Node)} {t : Nat} {tb b : Bid}
    {ndt : Node} (hgt : getCell cells t = some ndt) :
    ∀ (l1 : List (Nat × Bid)) (p : Option Nat),
      isChain cells p (l1 ++ [(t, tb)]) = true →
      isChain
        ((cells ++ [some ({ bid := b, next := none } : Node)]).set t
          (some ({ ndt with next := some cells.length } : Node)))
        p (l1 ++ [(t, tb), (cells.length, b)]) = true
  | [], p, h => by
    have ht : t < cells.length := getCell_lt hgt
    have hp : p = some t := by simpa [headAddr] using isChain_headAddr h
    subst hp
    obtain ⟨-, nd, hget, hbid, -⟩ := isChain_cons_iff.mp h
    have hnd : nd = ndt := by
      rw [hgt] at hget; exact Option.some_inj.mp hget.symm
    subst hnd
    have h1 : getCell ((cells ++ [some ({ bid := b, next := none } : Node)]).set t
        (some ({ nd with next := some cells.length } : Node))) t
        = some ({ nd with next := some cells.length } : Node) :=
      getCell_set_self (by simp only [List.length_append, List.length_singleton]; omega)
    have h2 : getCell ((cells ++ [some ({ bid := b, next := none } : Node)]).set t
        (some ({ nd with next := some cells.length } : Node))) cells.length
        = some ({ bid := b, next := none } : Node) := by
      rw [getCell_set_ne (Nat.ne_of_lt ht)]
      exact getCell_append_self
    refine isChain_cons_iff.mpr
      ⟨rfl, { nd with next := some cells.length }, h1, hbid, ?_⟩
    refine isChain_cons_iff.mpr
      ⟨rfl, { bid := b, next := none }, h2, rfl, ?_⟩
    rfl
  | f :: l1', p, h => by
    have hnodup := isChain_nodup h
    rw [List.cons_append] at h
    cases p with
    | none => exact absurd (isChain_none_iff.mp h) (by simp)
    | some a =>
      obtain ⟨hp, nd, hget, hbid, hrest⟩ := isChain_cons_iff.mp h
      subst hp
      rw [List.cons_append]
      refine isChain_cons_iff.mpr ⟨rfl, nd, ?_, hbid, ?_⟩
      · have hft : f.1 ≠ t := by
          rw [List.cons_append, List.map_cons, List.nodup_cons] at hnodup
          intro heq
          exact hnodup.1 (by rw [heq]; simp)
        have hlt : f.1 < cells.length := getCell_lt hget
        rw [getCell_set_ne (Ne.symm hft), getCell_append_left hlt]
        exact hget
      · exact isChain_snoc_aux hgt l1' nd.next hrest

theorem Inv_append {l : LL} {elems : List (Nat × Bid)} {b : Bid} (h : Inv l elems) :
    Inv (l.Append b) (elems ++ [(l.cells.length, b)]) := by
  obtain ⟨hchain, hsize, htail⟩ := h
  cases elems with
  | nil =>
    have hp : l.head = none := by simpa [headAddr] using isChain_headAddr hchain
    simp only [LL.Append, hp, List.nil_append]
    refine ⟨?_, ?_, ?_⟩
    · exact isChain_cons_iff.mpr ⟨rfl, { bid := b, next := none },
        getCell_append_self, rfl, rfl⟩
    · simp only [List.length_nil, Nat.cast_zero] at hsize
      simp [hsize]
    · simp
  | cons e rest =>
    have hne : e :: rest ≠ ([] : List (Nat × Bid)) := List.cons_ne_nil e rest
    obtain ⟨l1, t, tb, hdec⟩ : ∃ l1 t tb, e :: rest = l1 ++ [(t, tb)] :=
      ⟨(e :: rest).dropLast, ((e :: rest).getLast hne).1,
        ((e :: rest).getLast hne).2, by
          simpa using (List.dropLast_append_getLast hne).symm⟩
    have htl : l.tail = some t := by
      rw [htail, hdec, List.map_append]
      simp
    have hhd : l.head = some e.1 := by
      simpa [headAddr] using isChain_headAddr hchain
    have hchain2 : isChain l.cells l.head (l1 ++ [(t, tb)]) = true :=
      hdec ▸ hchain
    obtain ⟨ndt, hgt, hbt, hnt⟩ := isChain_last hchain2
    have hsetnext := setNext_of_get
      ((@getCell_append_left l.cells
        [some ({ bid := b, next := none } : Node)] t
        (getCell_lt hgt)).trans hgt) (some l.cells.length)
    simp only [LL.Append, hhd, htl]
    rw [hsetnext]
    refine ⟨?_, ?_, ?_⟩
    · have hs := isChain_snoc_aux (b := b) hgt l1 l.head hchain2
      rw [hhd] at hs
      rw [hdec, List.append_assoc]
      simpa using hs
    · simp only [List.length_append, List.length_cons, List.length_nil] at hsize ⊢
      push_cast
      push_cast at hsize
      omega
    · have hm : List.map Prod.fst ((e :: rest) ++ [(l.cells.length, b)])
          = (List.map Prod.fst (e :: rest)) ++ [l.cells.length] := by
        rw [List.map_append]; rfl
      rw [hm, List.getLast?_concat]

theorem Inv_prepend {l : LL} {elems : List (Nat × Bid)} {b : Bid} (h : Inv l elems) :
    Inv (l.Prepend b) ((l.cells.length, b) :: elems) := by
  obtain ⟨hchain, hsize, htail⟩ := h
  cases elems with
  | nil =>
    have hp : l.head = none := by simpa [headAddr] using isChain_headAddr hchain
    simp only [LL.Prepend, hp]
    refine ⟨?_, ?_, ?_⟩
    · exact isChain_cons_iff.mpr ⟨rfl, { bid := b, next := none },
        getCell_append_self, rfl, rfl⟩
    · simp only [List.length_nil, Nat.cast_zero] at hsize
      simp [hsize]
    · simp
  | cons e rest =>
    have hhd : l.head = some e.1 := by
      simpa [headAddr] using isChain_headAddr hchain
    simp only [LL.Prepend, hhd]
    refine ⟨?_, ?_, ?_⟩
    · refine isChain_cons_iff.mpr ⟨rfl, { bid := b, next := some e.1 },
        getCell_append_self, rfl, ?_⟩
      have := @isChain_append_cells l.cells
        [some ({ bid := b, next := some e.1 } : Node)] l.head (e :: rest) hchain
      rw [hhd] at this
      exact this
    · simp only [List.length_cons] at hsize ⊢
      push_cast
      push_cast at hsize
      omega
    · rw [htail]
      simp only [List.map_cons, List.getLast?_cons_cons]

theorem Inv_prependT {l : LL} {elems : List (Nat × Bid)} {b : Bid} (h : Inv l elems) :
    Inv (l.PrependT b) ((l.cells.length, b) :: elems) := by
  obtain ⟨hchain, hsize, htail⟩ := h
  cases elems with
  | nil =>
    have hp : l.head = none := by simpa [headAddr] using isChain_headAddr hchain
    have ht : l.tail = none := by simpa using htail
    simp only [LL.PrependT, hp, ht]
    refine ⟨?_, ?_, ?_⟩
    · exact isChain_cons_iff.mpr ⟨rfl, { bid := b, next := none },
        getCell_append_self, rfl, rfl⟩
    · simp only [List.length_nil, Nat.cast_zero] at hsize
      simp [hsize]
    · simp
  | cons e rest =>
    have hhd : l.head = some e.1 := by
      simpa [headAddr] using isChain_headAddr hchain
    have hne : (List.map Prod.fst (e :: rest)) ≠ [] := by simp
    obtain ⟨y, hy⟩ := Option.isSome_iff_exists.mp (List.getLast?_isSome.mpr hne)
    have ht : l.tail = some y := htail.trans hy
    simp only [LL.PrependT, hhd, ht]
    refine ⟨?_, ?_, ?_⟩
    · refine isChain_cons_iff.mpr ⟨rfl, { bid := b, next := some e.1 },
        getCell_append_self, rfl, ?_⟩
      have := @isChain_append_cells l.cells
        [some ({ bid := b, next := some e.1 } : Node)] l.head (e :: rest) hchain
      rw [hhd] at this
      exact this
    · simp only [List.length_cons] at hsize ⊢
      push_cast
      push_cast at hsize
      omega
    · simp only [List.map_cons] at hy
      simp only [List.map_cons, List.getLast?_cons_cons, hy]

theorem getCell_setNext_ne {cells : List (Option Node)} {a c : Nat}
    {nxt : Option Nat} (h : a ≠ c) :
    getCell (setNext cells a nxt) c = getCell cells c := by
  rw [setNext]
  cases hg : getCell cells a with
  | none => rfl
  | some nd => exact getCell_set_ne h

theorem lastAddr_spec (c : Nat) (r1 : List (Nat × Bid)) :
    (c :: r1.map Prod.fst).getLast? = some (lastAddr c r1) := by
  induction r1 generalizing c with
  | nil => rfl
  | cons f r1' ih =>
    rw [List.map_cons, List.getLast?_cons_cons, ih f.1, lastAddr_cons]

theorem hasMatch_split {bidId : String} {rest : List (Nat × Bid)}
    (h : hasMatch bidId rest = true) :
    ∃ r1 x xb r2, rest = r1 ++ (x, xb) :: r2 ∧
      hasMatch bidId r1 = false ∧ xb.bidId = bidId := by
  induction rest with
  | nil => simp [hasMatch] at h
  | cons e rest' ih =>
    by_cases he : e.2.bidId = bidId
    · exact ⟨[], e.1, e.2, rest', by simp, rfl, he⟩
    · have h' : hasMatch bidId rest' = true := by
        simpa [hasMatch, he] using h
      obtain ⟨r1, x, xb, r2, hdec, hns, hxb⟩ := ih h'
      exact ⟨e :: r1, x, xb, r2, by rw [hdec]; rfl,
        by simp [hasMatch] at hns ⊢; exact ⟨he, hns⟩, hxb⟩

theorem removeFirst_no_match {bidId : String} {elems : List (Nat × Bid)}
    (h : hasMatch bidId elems = false) :
    removeFirst bidId elems = elems := by
  induction elems with
  | nil => rfl
  | cons e rest ih =>
    simp [hasMatch] at h
    have hr : hasMatch bidId rest = false := by simp [hasMatch]; exact h.2
    simp [removeFirst, h.1, ih hr]

theorem removeFirst_split {bidId : String} {r1 r2 : List (Nat × Bid)}
    {x : Nat} {xb : Bid} (hns : hasMatch bidId r1 = false)
    (hxb : xb.bidId = bidId) :
    removeFirst bidId (r1 ++ (x, xb) :: r2) = r1 ++ r2 := by
  induction r1 with
  | nil => simp [removeFirst, hxb]
  | cons f r1' ih =>
    simp [hasMatch] at hns
    have hr : hasMatch bidId r1' = false := by simp [hasMatch]; exact hns.2
    simp [removeFirst, hns.1, ih hr]

theorem removeGo_none {cells : List (Option Node)} {tl : Option Nat}
    {bidId : String} :
    ∀ (fuel : Nat) (cur : Nat) (cb : Bid) (rest : List (Nat × Bid)),
      isChain cells (some cur) ((cur, cb) :: rest) = true →
      hasMatch bidId rest = false →
      removeGo cells tl bidId fuel cur = none := by
  intro fuel
  induction fuel with
  | zero => intro cur cb rest hchain hnm; rfl
  | succ fuel ih =>
    intro cur cb rest hchain hnm
    obtain ⟨-, cnd, hget, hbid, hrest⟩ := isChain_cons_iff.mp hchain
    cases rest with
    | nil =>
      have hnx : cnd.next = none := by
        simpa [headAddr] using isChain_headAddr hrest
      simp only [removeGo, hget, hnx]
    | cons f rest' =>
      have hnx : cnd.next = some f.1 := by
        simpa [headAddr] using isChain_headAddr hrest
      rw [hnx] at hrest
      obtain ⟨-, nd2, hget2, hbid2, hrest2⟩ := isChain_cons_iff.mp hrest
      simp only [hasMatch, List.any_cons, Bool.or_eq_false_iff,
        decide_eq_false_iff_not] at hnm
      have hnm2 : hasMatch bidId rest' = false := hnm.2
      simp only [removeGo, hget, hnx, hget2]
      rw [if_neg (by rw [hbid2]; exact hnm.1)]
      have hchain2 : isChain cells (some f.1) ((f.1, f.2) :: rest') = true := by
        rw [isChain_cons_iff] at hrest ⊢
        simpa using hrest
      exact ih f.1 f.2 rest' hchain2 hnm2

theorem removeGo_found {cells : List (Option Node)} {tl : Option Nat}
    {bidId : String} {x : Nat} {xb : Bid} {r2 : List (Nat × Bid)}
    (hxb : xb.bidId = bidId) :
    ∀ (r1 : List (Nat × Bid)) (fuel cur : Nat) (cb : Bid),
      isChain cells (some cur) ((cur, cb) :: (r1 ++ (x, xb) :: r2)) = true →
      hasMatch bidId r1 = false →
      r1.length < fuel →
      removeGo cells tl bidId fuel cur =
        some ((setNext cells (lastAddr cur r1) (headAddr r2)).set x none,
              if tl = some x then some (lastAddr cur r1) else tl) := by
  intro r1
  induction r1 with
  | nil =>
    intro fuel cur cb hchain hnm hfuel
    cases fuel with
    | zero => omega
    | succ fuel =>
      obtain ⟨-, cnd, hget, hbid, hrest⟩ := isChain_cons_iff.mp hchain
      have hnx : cnd.next = some x := by
        simpa [headAddr] using isChain_headAddr hrest
      rw [hnx] at hrest
      obtain ⟨-, xnd, hgetx, hbidx, hrest2⟩ := isChain_cons_iff.mp hrest
      have hq : xnd.next = headAddr r2 := isChain_headAddr hrest2
      simp only [removeGo, hget, hnx, hgetx]
      rw [if_pos (by rw [hbidx]; exact hxb), hq, lastAddr_nil]
  | cons f r1' ih =>
    intro fuel cur cb hchain hnm hfuel
    cases fuel with
    | zero => simp at hfuel
    | succ fuel =>
      obtain ⟨-, cnd, hget, hbid, hrest⟩ := isChain_cons_iff.mp hchain
      have hnx : cnd.next = some f.1 := by
        simpa [headAddr] using isChain_headAddr hrest
      rw [hnx] at hrest
      obtain ⟨-, nd2, hget2, hbid2, hrest2⟩ := isChain_cons_iff.mp hrest
      simp only [hasMatch, List.any_cons, Bool.or_eq_false_iff,
        decide_eq_false_iff_not] at hnm
      simp only [removeGo, hget, hnx, hget2]
      rw [if_neg (by rw [hbid2]; exact hnm.1)]
      have hchain2 : isChain cells (some f.1)
          ((f.1, f.2) :: (r1' ++ (x, xb) :: r2)) = true := by
        simpa using hrest
      have hnm2 : hasMatch bidId r1' = false := by
        simp only [hasMatch]
        exact hnm.2
      have := ih fuel f.1 f.2 hchain2 hnm2 (by simp at hfuel; omega)
      rw [this, lastAddr_cons]

theorem isChain_unlink {cells : List (Option Node)} {x : Nat} {xb : Bid}
    {r2 : List (Nat × Bid)} :
    ∀ (r1 : List (Nat × Bid)) (h0 : Nat) (hb : Bid),
      isChain cells (some h0) ((h0, hb) :: (r1 ++ (x, xb) :: r2)) = true →
      isChain ((setNext cells (lastAddr h0 r1) (headAddr r2)).set x none)
        (some h0) ((h0, hb) :: (r1 ++ r2)) = true
  | [], h0, hb, hchain => by
    have hnodup := isChain_nodup hchain
    simp only [List.nil_append, List.map_cons, List.nodup_cons, List.mem_cons] at hnodup
    have hhx : h0 ≠ x := fun heq => hnodup.1 (Or.inl heq)
    have hr2h : ∀ e ∈ r2, e.1 ≠ h0 := fun e he heq =>
      hnodup.1 (Or.inr (List.mem_map.mpr ⟨e, he, heq⟩))
    have hr2x : ∀ e ∈ r2, e.1 ≠ x := fun e he heq =>
      hnodup.2.1 (List.mem_map.mpr ⟨e, he, heq⟩)
    obtain ⟨-, hnd, hget, hbid, hrest⟩ := isChain_cons_iff.mp hchain
    have hnx : hnd.next = some x := by
      simpa [headAddr] using isChain_headAddr hrest
    rw [hnx] at hrest
    obtain ⟨-, xnd, hgetx, -, hrest2⟩ := isChain_cons_iff.mp hrest
    have hq : xnd.next = headAddr r2 := isChain_headAddr hrest2
    rw [lastAddr_nil, setNext_of_get hget]
    refine isChain_cons_iff.mpr
      ⟨rfl, { hnd with next := headAddr r2 }, ?_, hbid, ?_⟩
    · rw [getCell_set_ne hhx.symm]
      exact getCell_set_self (getCell_lt hget)
    · rw [hq] at hrest2
      simp only [List.nil_append]
      exact isChain_set_outside
        (isChain_set_outside hrest2 hr2h) hr2x
  | f :: r1', h0, hb, hchain => by
    have hnodup := isChain_nodup hchain
    rw [List.cons_append] at hchain
    simp only [List.cons_append, List.map_cons, List.map_append,
      List.nodup_cons, List.mem_cons, List.mem_append] at hnodup
    obtain ⟨-, hnd, hget, hbid, hrest⟩ := isChain_cons_iff.mp hchain
    have hnx : hnd.next = some f.1 := by
      simpa [headAddr] using isChain_headAddr hrest
    have hsub : isChain cells (some f.1)
        ((f.1, f.2) :: (r1' ++ (x, xb) :: r2)) = true := by
      rw [hnx] at hrest
      simpa using hrest
    have chain2 := isChain_unlink r1' f.1 f.2 hsub
    have hhx : h0 ≠ x := by
      intro heq
      exact hnodup.1 (Or.inr (Or.inr (Or.inl heq)))
    have hhprev : lastAddr f.1 r1' ≠ h0 := by
      intro heq
      rcases List.mem_cons.mp (lastAddr_mem f.1 r1') with hm | hm
      · exact hnodup.1 (Or.inl (heq ▸ hm))
      · exact hnodup.1 (Or.inr (Or.inl (heq ▸ hm)))
    rw [lastAddr_cons]
    refine isChain_cons_iff.mpr ⟨rfl, hnd, ?_, hbid, ?_⟩
    · rw [getCell_set_ne hhx.symm, getCell_setNext_ne hhprev]
      exact hget
    · rw [hnx, List.cons_append]
      simpa using chain2

theorem hasMatch_cons (bidId : String) (e : Nat × Bid)
    (rest : List (Nat × Bid)) :
    hasMatch bidId (e :: rest)
      = (decide (e.2.bidId = bidId) || hasMatch bidId rest) := rfl

theorem RemoveT_spec {l : LL} {elems : List (Nat × Bid)} {bidId : String}
    (h : Inv l elems) :
    Inv (l.RemoveT bidId).1 (removeFirst bidId elems) ∧
    (l.RemoveT bidId).2 = hasMatch bidId elems := by
  obtain ⟨hchain, hsize, htail⟩ := h
  cases elems with
  | nil =>
    have hp : l.head = none := by simpa [headAddr] using isChain_headAddr hchain
    simp only [LL.RemoveT, hp]
    exact ⟨⟨hchain, hsize, htail⟩, rfl⟩
  | cons e rest =>
    obtain ⟨h0, hb⟩ := e
    have hp : l.head = some h0 := by simpa [headAddr] using isChain_headAddr hchain
    rw [hp] at hchain
    obtain ⟨-, hnd, hget, hbid, hrest⟩ := isChain_cons_iff.mp hchain
    have hnodup := isChain_nodup hchain
    by_cases hmatch : hnd.bid.bidId = bidId
    · have hbm : hb.bidId = bidId := by rw [hbid] at hmatch; exact hmatch
      have hrf : removeFirst bidId ((h0, hb) :: rest) = rest := by
        simp [removeFirst, hbm]
      simp only [LL.RemoveT, hp, hget, if_pos hmatch, hrf]
      refine ⟨⟨?_, ?_, ?_⟩, by simp [hasMatch, hbm]⟩
      · apply isChain_set_outside hrest
        intro f hf heq
        rw [List.map_cons, List.nodup_cons] at hnodup
        exact hnodup.1 (List.mem_map.mpr ⟨f, hf, heq⟩)
      · simp only [List.length_cons] at hsize
        push_cast at hsize ⊢
        omega
      · cases hnx : hnd.next with
        | none =>
          have hre : rest = [] := by
            rw [hnx] at hrest; exact isChain_none_iff.mp hrest
          simp [hre]
        | some nx =>
          have hrne : rest ≠ [] := by
            intro hre
            rw [hnx, hre] at hrest
            rw [isChain_some_nil] at hrest
            cases hrest
          cases rest with
          | nil => exact absurd rfl hrne
          | cons f rest' =>
            simp only [htail, List.map_cons, List.getLast?_cons_cons]
    · have hbm : ¬ hb.bidId = bidId := by rw [hbid] at hmatch; exact hmatch
      cases hm : hasMatch bidId rest with
      | false =>
        have hnone := @removeGo_none l.cells l.tail bidId l.cells.length h0 hb
          rest hchain hm
        simp only [LL.RemoveT, hp, hget, if_neg hmatch, hnone]
        rw [show removeFirst bidId ((h0, hb) :: rest)
            = (h0, hb) :: removeFirst bidId rest from by simp [removeFirst, hbm],
          removeFirst_no_match hm]
        exact ⟨⟨by rw [hp]; exact hchain, hsize, htail⟩,
          by rw [hasMatch_cons]; simp [hbm, hm]⟩
      | true =>
        obtain ⟨r1, x, xb, r2, hdec, hns, hxb⟩ := hasMatch_split hm
        subst hdec
        have hfuel : r1.length < l.cells.length := by
          have hlen := isChain_length_le hchain
          simp only [List.length_cons, List.length_append] at hlen
          omega
        have hremove := @removeGo_found l.cells l.tail bidId x xb r2 hxb r1
          l.cells.length h0 hb hchain hns hfuel
        have hunlink := isChain_unlink r1 h0 hb hchain
        have hrf : removeFirst bidId ((h0, hb) :: (r1 ++ (x, xb) :: r2))
            = (h0, hb) :: (r1 ++ r2) := by
          simp only [removeFirst]
          rw [if_neg hbm, removeFirst_split hns hxb]
        simp only [LL.RemoveT, hp, hget, if_neg hmatch, hremove, hrf]
        refine ⟨⟨?_, ?_, ?_⟩, by simp [hasMatch, hxb]⟩
        · exact hunlink
        · simp only [List.length_cons, List.length_append] at hsize ⊢
          push_cast at hsize ⊢
          omega
        · cases r2 with
          | nil =>
            have hlx : l.tail = some x := by
              rw [htail]
              have hmm : List.map Prod.fst ((h0, hb) :: (r1 ++ [(x, xb)]))
                  = (h0 :: List.map Prod.fst r1) ++ [x] := by simp
              rw [hmm, List.getLast?_concat]
            rw [if_pos hlx]
            rw [List.append_nil, List.map_cons]
            exact (lastAddr_spec h0 r1).symm
          | cons g r2' =>
            have hgne : (List.map Prod.fst (g :: r2')) ≠ [] := by simp
            obtain ⟨z, hz⟩ := Option.isSome_iff_exists.mp
              (List.getLast?_isSome.mpr hgne)
            have htval : ∀ mid : List (Nat × Bid),
                (List.map Prod.fst ((h0, hb) :: (r1 ++ mid ++ g :: r2'))).getLast?
                  = some z := by
              intro mid
              rw [List.map_cons, List.map_append, List.map_append,
                ← List.cons_append,
                List.getLast?_append_of_ne_nil _ hgne, hz]
            have hlz : l.tail = some z := by
              rw [htail]
              have := htval [(x, xb)]
              simpa using this
            have hchop := @isChain_chop l.cells (some h0) ((h0, hb) :: r1)
              (g :: r2') (x, xb) hchain
            have hxnotin : x ∉ List.map Prod.fst (g :: r2') := by
              have hnd2 := isChain_nodup hchop
              rw [List.map_cons, List.nodup_cons] at hnd2
              exact hnd2.1
            have hxz : ¬ l.tail = some x := by
              rw [hlz]
              intro hcontra
              have : z = x := by simpa using hcontra
              exact hxnotin (this ▸ List.mem_of_mem_getLast? hz)
            rw [if_neg hxz, hlz]
            have := htval []
            simpa using this.symm

theorem RemoveT_false {l : LL} {elems : List (Nat × Bid)} {bidId : String}
    (h : Inv l elems) (hm : hasMatch bidId elems = false) :
    l.RemoveT bidId = (l, false) := by
  obtain ⟨hchain, -, -⟩ := h
  cases elems with
  | nil =>
    have hp : l.head = none := by simpa [headAddr] using isChain_headAddr hchain
    simp [LL.RemoveT, hp]
  | cons e rest =>
    obtain ⟨h0, hb⟩ := e
    have hp : l.head = some h0 := by simpa [headAddr] using isChain_headAddr hchain
    rw [hp] at hchain
    obtain ⟨-, hnd, hget, hbid, hrest⟩ := isChain_cons_iff.mp hchain
    rw [hasMatch_cons, Bool.or_eq_false_iff, decide_eq_false_iff_not] at hm
    have hmatch : ¬ hnd.bid.bidId = bidId := by rw [hbid]; exact hm.1
    have hnone := @removeGo_none l.cells l.tail bidId l.cells.length h0 hb
      rest hchain hm.2
    simp [LL.RemoveT, hp, hget, hmatch, hnone]

theorem Remove_eq_RemoveT (l : LL) (bidId : String) :
    l.Remove bidId = (l.RemoveT bidId).1 := by
  cases hh : l.head with
  | none => simp [LL.Remove, LL.RemoveT, hh]
  | some h =>
    cases hg : getCell l.cells h with
    | none => simp [LL.Remove, LL.RemoveT, hh, hg]
    | some hnd =>
      by_cases hm : hnd.bid.bidId = bidId
      · simp [LL.Remove, LL.RemoveT, hh, hg, hm]
      · cases hr : removeGo l.cells l.tail bidId l.cells.length h with
        | none => simp [LL.Remove, LL.RemoveT, hh, hg, hm, hr]
        | some p =>
          cases p with
          | mk c t => simp [LL.Remove, LL.RemoveT, hh, hg, hm, hr]

theorem Reachable_Inv {l : LL} (h : Reachable l) : ∃ elems, Inv l elems := by
  induction h with
  | empty => exact ⟨[], Inv_empty⟩
  | append b _ ih =>
    obtain ⟨elems, hi⟩ := ih
    exact ⟨_, Inv_append hi⟩
  | prepend b _ ih =>
    obtain ⟨elems, hi⟩ := ih
    exact ⟨_, Inv_prepend hi⟩
  | remove bidId _ ih =>
    obtain ⟨elems, hi⟩ := ih
    exact ⟨_, by rw [Remove_eq_RemoveT]; exact (RemoveT_spec hi).1⟩

theorem searchGo_spec {cells : List (Option Node)} {bidId : String} :
    ∀ (elems : List (Nat × Bid)) (fuel : Nat) (q : Option Nat),
      isChain cells q elems = true → elems.length ≤ fuel →
      searchGo cells bidId fuel q
        = ((elems.map Prod.snd).find?
            (fun b => decide (b.bidId = bidId))).getD emptyBid := by
  intro elems
  induction elems with
  | nil =>
    intro fuel q hchain hf
    have hq : q = none := by simpa [headAddr] using isChain_headAddr hchain
    subst hq
    cases fuel <;> rfl
  | cons e rest ih =>
    intro fuel q hchain hf
    have hq : q = some e.1 := by simpa [headAddr] using isChain_headAddr hchain
    subst hq
    obtain ⟨-, nd, hget, hbid, hrest⟩ := isChain_cons_iff.mp hchain
    cases fuel with
    | zero => simp at hf
    | succ fuel =>
      simp only [searchGo, hget]
      by_cases hb : nd.bid.bidId = bidId
      · rw [if_pos hb, List.map_cons,
          List.find?_cons_of_pos _ (by rw [← hbid]; simpa using hb)]
        simp [hbid]
      · rw [if_neg hb, List.map_cons,
          List.find?_cons_of_neg _ (by rw [← hbid]; simpa using hb)]
        exact ih fuel nd.next hrest (by simp at hf; omega)

theorem Search_spec {l : LL} {elems : List (Nat × Bid)} {bidId : String}
    (h : Inv l elems) :
    l.Search bidId
      = ((elems.map Prod.snd).find?
          (fun b => decide (b.bidId = bidId))).getD emptyBid := by
  obtain ⟨hchain, -, -⟩ := h
  cases elems with
  | nil =>
    have hp : l.head = none := by simpa [headAddr] using isChain_headAddr hchain
    simp only [LL.Search, hp]
    rfl
  | cons e rest =>
    have hp : l.head = some e.1 := by simpa [headAddr] using isChain_headAddr hchain
    rw [hp] at hchain
    obtain ⟨-, nd, hget, hbid, hrest⟩ := isChain_cons_iff.mp hchain
    have hlen : rest.length ≤ l.cells.length := by
      have := isChain_length_le hchain
      simp at this
      omega
    simp only [LL.Search, hp, hget]
    by_cases hb : nd.bid.bidId = bidId
    · rw [if_pos hb, List.map_cons,
        List.find?_cons_of_pos _ (by rw [← hbid]; simpa using hb)]
      simp [hbid]
    · rw [if_neg hb, List.map_cons,
        List.find?_cons_of_neg _ (by rw [← hbid]; simpa using hb)]
      exact searchGo_spec rest l.cells.length nd.next hrest hlen

theorem traverseGo_spec {cells : List (Option Node)} :
    ∀ (elems : List (Nat × Bid)) (fuel : Nat) (q : Option Nat),
      isChain cells q elems = true → elems.length ≤ fuel →
      traverseGo cells fuel q = elems.map Prod.snd := by
  intro elems
  induction elems with
  | nil =>
    intro fuel q hchain hf
    have hq : q = none := by simpa [headAddr] using isChain_headAddr hchain
    subst hq
    cases fuel <;> rfl
  | cons e rest ih =>
    intro fuel q hchain hf
    have hq : q = some e.1 := by simpa [headAddr] using isChain_headAddr hchain
    subst hq
    obtain ⟨-, nd, hget, hbid, hrest⟩ := isChain_cons_iff.mp hchain
    cases fuel with
    | zero => simp at hf
    | succ fuel =>
      simp only [traverseGo, hget, List.map_cons]
      rw [hbid, ih fuel nd.next hrest (by simp at hf; omega)]

theorem Traverse_spec {l : LL} {elems : List (Nat × Bid)} (h : Inv l elems) :
    l.Traverse = elems.map Prod.snd := by
  obtain ⟨hchain, -, -⟩ := h
  exact traverseGo_spec elems l.cells.length l.head hchain
    (isChain_length_le hchain)

theorem searchTGo_spec {cells : List (Option Node)} {bidId : String} :
    ∀ (elems : List (Nat × Bid)) (fuel : Nat) (q : Option Nat),
      isChain cells q elems = true → elems.length ≤ fuel →
      (searchTGo cells bidId fuel q).isSome = hasMatch bidId elems := by
  intro elems
  induction elems with
  | nil =>
    intro fuel q hchain hf
    have hq : q = none := by simpa [headAddr] using isChain_headAddr hchain
    subst hq
    cases fuel <;> rfl
  | cons e rest ih =>
    intro fuel q hchain hf
    have hq : q = some e.1 := by simpa [headAddr] using isChain_headAddr hchain
    subst hq
    obtain ⟨-, nd, hget, hbid, hrest⟩ := isChain_cons_iff.mp hchain
    cases fuel with
    | zero => simp at hf
    | succ fuel =>
      simp only [searchTGo, hget, hasMatch_cons]
      by_cases hb : nd.bid.bidId = bidId
      · rw [if_pos hb]
        have : e.2.bidId = bidId := by rw [← hbid]; exact hb
        simp [this]
      · rw [if_neg hb]
        have hb2 : ¬ e.2.bidId = bidId := by rw [← hbid]; exact hb
        rw [ih fuel nd.next hrest (by simp at hf; omega)]
        simp [hb2]

theorem SearchT_spec {l : LL} {elems : List (Nat × Bid)} {bidId : String}
    (h : Inv l elems) :
    (l.SearchT bidId).isSome = hasMatch bidId elems := by
  obtain ⟨hchain, -, -⟩ := h
  exact searchTGo_spec elems l.cells.length l.head hchain
    (isChain_length_le hchain)

theorem hasMatch_iff_countMatches {bidId : String} {elems : List (Nat × Bid)} :
    hasMatch bidId elems = true ↔ countMatches bidId elems ≠ 0 := by
  constructor
  · intro h hc
    rw [countMatches, List.countP_eq_zero] at hc
    rw [hasMatch, List.any_eq_true] at h
    obtain ⟨e, he, hpe⟩ := h
    exact absurd hpe (by simpa using hc e he)
  · intro h
    rw [countMatches, Ne, List.countP_eq_zero] at h
    push_neg at h
    obtain ⟨e, he, hpe⟩ := h
    rw [hasMatch, List.any_eq_true]
    exact ⟨e, he, by simpa using hpe⟩

theorem countMatches_removeFirst {bidId : String} {elems : List (Nat × Bid)}
    (hm : hasMatch bidId elems = true) :
    countMatches bidId (removeFirst bidId elems)
      = countMatches bidId elems - 1 := by
  obtain ⟨r1, x, xb, r2, hdec, hns, hxb⟩ := hasMatch_split hm
  subst hdec
  rw [removeFirst_split hns hxb]
  simp only [countMatches, List.countP_append, List.countP_cons]
  simp [hxb]

theorem specIns_length : ∀ (ops : List InsOp) (m : List Bid),
    (specIns m ops).length = m.length + ops.length := by
  intro ops
  induction ops with
  | nil => intro m; simp [specIns]
  | cons op ops ih =>
    intro m
    cases op with
    | app b => rw [show specIns m (InsOp.app b :: ops) = specIns (m ++ [b]) ops from rfl, ih]; simp; omega
    | pre b => rw [show specIns m (InsOp.pre b :: ops) = specIns (b :: m) ops from rfl, ih]; simp; omega

theorem runIns_spec : ∀ (ops : List InsOp) (l : LL) (elems : List (Nat × Bid)),
    Inv l elems →
    ∃ elems2, Inv (runIns l ops) elems2 ∧
      elems2.map Prod.snd = specIns (elems.map Prod.snd) ops := by
  intro ops
  induction ops with
  | nil => intro l elems h; exact ⟨elems, h, rfl⟩
  | cons op ops ih =>
    intro l elems h
    cases op with
    | app b =>
      obtain ⟨e2, h2, hmap⟩ := ih (l.Append b)
        (elems ++ [(l.cells.length, b)]) (Inv_append h)
      refine ⟨e2, h2, ?_⟩
      rw [hmap]
      simp [specIns]
    | pre b =>
      obtain ⟨e2, h2, hmap⟩ := ih (l.Prepend b)
        ((l.cells.length, b) :: elems) (Inv_prepend h)
      refine ⟨e2, h2, ?_⟩
      rw [hmap]
      simp [specIns]

/-- C1: for every Record Store reachable from the empty store by `Append`,
`Prepend` and `Remove` operations, the structural invariants hold: the stored
count equals the number of nodes reachable from head (the unique chain
`elems`), head is null iff tail is null iff count is 0, and the tail node's
successor reference is null. -/
theorem reachable_store_invariants (l : LL) (h : Reachable l) :
    ∃ elems : List (Nat × Bid),
      isChain l.cells l.head elems = true ∧
      l.size = (elems.length : Int) ∧
      (l.head = none ↔ l.tail = none) ∧
      (l.head = none ↔ l.size = 0) ∧
      (∀ t, l.tail = some t →
        ∃ nd, getCell l.cells t = some nd ∧ nd.next = none) := by
  obtain ⟨elems, hchain, hsize, htail⟩ := Reachable_Inv h
  have hhd := isChain_headAddr hchain
  refine ⟨elems, hchain, hsize, ?_, ?_, ?_⟩
  · constructor
    · intro hp
      have hel : elems = [] := isChain_none_iff.mp (hp ▸ hchain)
      rw [htail, hel]
      rfl
    · intro ht
      rw [htail] at ht
      have : List.map Prod.fst elems = [] := List.getLast?_eq_none_iff.mp ht
      have hel : elems = [] := by simpa using this
      rw [hhd, hel]
      rfl
  · constructor
    · intro hp
      have hel : elems = [] := isChain_none_iff.mp (hp ▸ hchain)
      rw [hsize, hel]
      rfl
    · intro hz
      have hel : elems = [] := by
        cases elems with
        | nil => rfl
        | cons e rest =>
          rw [hsize] at hz
          simp at hz
          omega
      rw [hhd, hel]
      rfl
  · intro t ht
    rw [htail] at ht
    have hne : elems ≠ [] := by
      intro he
      rw [he] at ht
      cases ht
    obtain ⟨l1, t', tb, hdec⟩ : ∃ l1 t' tb, elems = l1 ++ [(t', tb)] :=
      ⟨elems.dropLast, (elems.getLast hne).1, (elems.getLast hne).2, by
        simpa using (List.dropLast_append_getLast hne).symm⟩
    have htt : t' = t := by
      rw [hdec, List.map_append] at ht
      simp at ht
      exact ht
    obtain ⟨nd, hget, -, hnext⟩ := isChain_last (hdec ▸ hchain)
    exact ⟨nd, htt ▸ hget, hnext⟩

/-- Witness for C1 at a concrete reachable store: an append followed by a
prepend and a remove. -/
theorem reachable_store_invariants_witness :
    Reachable ((store2.Prepend ghostBid).Remove "001") ∧
    ∃ elems : List (Nat × Bid),
      isChain ((store2.Prepend ghostBid).Remove "001").cells
        ((store2.Prepend ghostBid).Remove "001").head elems = true ∧
      ((store2.Prepend ghostBid).Remove "001").size = (elems.length : Int) ∧
      (((store2.Prepend ghostBid).Remove "001").head = none ↔
        ((store2.Prepend ghostBid).Remove "001").tail = none) ∧
      (((store2.Prepend ghostBid).Remove "001").head = none ↔
        ((store2.Prepend ghostBid).Remove "001").size = 0) ∧
      (∀ t, ((store2.Prepend ghostBid).Remove "001").tail = some t →
        ∃ nd, getCell ((store2.Prepend ghostBid).Remove "001").cells t = some nd ∧
          nd.next = none) := by
  have hr : Reachable ((store2.Prepend ghostBid).Remove "001") :=
    Reachable.remove "001" (Reachable.prepend ghostBid
      (Reachable.append sampleBid2 (Reachable.append sampleBid1 Reachable.empty)))
  exact ⟨hr, reachable_store_invariants _ hr⟩

/-- C2: for every sequence of `Append` and `Prepend` operations applied to an
initially empty Record Store, `Size()` afterwards equals the number of
operations, and head-to-tail traversal (`PrintList`/`Traverse`) yields
exactly the sequence prescribed by the specification's insertion-order
semantics (`specIns`): each appended record after, and each prepended record
before, all records present at the time of the call. -/
theorem append_prepend_size_order (ops : List InsOp) :
    (runIns LL.empty ops).Size = (ops.length : Int) ∧
    (runIns LL.empty ops).Traverse = specIns [] ops := by
  obtain ⟨e2, h2, hmap⟩ := runIns_spec ops LL.empty [] Inv_empty
  constructor
  · have hs := h2.2.1
    have hl : e2.length = ops.length := by
      have hlm := congrArg List.length hmap
      rw [List.length_map, specIns_length] at hlm
      simpa using hlm
    rw [LL.Size, hs, hl]
  · rw [Traverse_spec h2, hmap]
    rfl

/-- C3: on a non-empty store, removing the head makes head point at the
removed node's former successor; removing the tail makes tail point at its
former predecessor; removing the sole remaining node empties the store
(head and tail null, count 0). -/
theorem remove_head_tail_sole (l : LL) (elems : List (Nat × Bid))
    (bidId : String) (h : Inv l elems) :
    (∀ h0 hb rest, elems = (h0, hb) :: rest → hb.bidId = bidId →
      (l.Remove bidId).head = headAddr rest) ∧
    (∀ pre p pb t tb, elems = pre ++ [(p, pb), (t, tb)] →
      (∀ e ∈ pre ++ [(p, pb)], e.2.bidId ≠ bidId) → tb.bidId = bidId →
      (l.Remove bidId).tail = some p) ∧
    (∀ h0 hb, elems = [(h0, hb)] → hb.bidId = bidId →
      (l.Remove bidId).head = none ∧ (l.Remove bidId).tail = none ∧
        (l.Remove bidId).size = 0) := by
  obtain ⟨hchain2, hsize2, htail2⟩ := (@RemoveT_spec l elems bidId h).1
  rw [← Remove_eq_RemoveT] at hchain2 hsize2 htail2
  refine ⟨?_, ?_, ?_⟩
  · intro h0 hb rest hdec hbm
    have hrf : removeFirst bidId elems = rest := by
      rw [hdec]; simp [removeFirst, hbm]
    rw [hrf] at hchain2
    exact isChain_headAddr hchain2
  · intro pre p pb t tb hdec hnm htb
    have hns : hasMatch bidId (pre ++ [(p, pb)]) = false := by
      rw [hasMatch, List.any_eq_false]
      intro e he
      simpa using hnm e he
    have hrf : removeFirst bidId elems = pre ++ [(p, pb)] := by
      rw [hdec, show pre ++ [(p, pb), (t, tb)]
          = (pre ++ [(p, pb)]) ++ (t, tb) :: [] from by simp]
      rw [removeFirst_split hns htb]
      simp
    rw [hrf] at htail2
    rw [htail2, List.map_append]
    simp
  · intro h0 hb hdec hbm
    have hrf : removeFirst bidId elems = [] := by
      rw [hdec]; simp [removeFirst, hbm]
    rw [hrf] at hchain2 hsize2 htail2
    refine ⟨?_, ?_, ?_⟩
    · have := isChain_headAddr hchain2
      simpa [headAddr] using this
    · simpa using htail2
    · simpa using hsize2

/-- Witness for C3: removing the tail record of a two-element store moves
tail back to the predecessor; removing the sole record of a one-element
store empties it; removing the head of a two-element store advances head to
the former successor. -/
theorem remove_head_tail_sole_witness :
    (store2.Remove "002").tail = some 0 ∧
    (store1.Remove "001").head = none ∧
    (store2.Remove "001").head = some 1 := by
  have h2 := remove_head_tail_sole store2 [(0, sampleBid1), (1, sampleBid2)]
    "002" (by decide)
  have h1 := remove_head_tail_sole store1 [(0, sampleBid1)] "001" (by decide)
  have h3 := remove_head_tail_sole store2 [(0, sampleBid1), (1, sampleBid2)]
    "001" (by decide)
  refine ⟨?_, ?_, ?_⟩
  · exact h2.2.1 [] 0 sampleBid1 1 sampleBid2 rfl (by decide) rfl
  · exact (h1.2.2 0 sampleBid1 rfl rfl).1
  · exact (h3.1 0 sampleBid1 [(1, sampleBid2)] rfl rfl).trans rfl

/-- C4 counterexample: on a store holding a record whose identifier is the
empty string (reachable, since `Append` never validates identifiers),
`Search("")` returns that record — which is not the empty/default record —
so the claim's "Search with the empty string returns not-found regardless of
the store's contents" is false as stated. -/
theorem search_empty_id_counterexample :
    ghostStore.Search "" ≠ emptyBid ∧
    (ghostStore.Search "").title = "Ghost" := by
  decide

/-- C4 (amended): `Search(id)` returns the record of the first node in
head-to-tail order whose identifier exactly equals `id` (case-sensitive, no
trimming), and the default record when no node matches; consequently
`Search("")` returns the default record on every store all of whose records
have non-empty identifiers (the data model's stated discipline), though not
on stores holding a record with an empty identifier. -/
theorem search_first_match (l : LL) (elems : List (Nat × Bid)) (h : Inv l elems) :
    (∀ bidId, l.Search bidId
      = ((elems.map Prod.snd).find?
          (fun b => decide (b.bidId = bidId))).getD emptyBid) ∧
    ((∀ b ∈ elems.map Prod.snd, b.bidId ≠ "") → l.Search "" = emptyBid) := by
  refine ⟨fun bidId => Search_spec h, fun hne => ?_⟩
  rw [Search_spec h]
  have hnone : (elems.map Prod.snd).find?
      (fun b => decide (b.bidId = "")) = none := by
    rw [List.find?_eq_none]
    intro b hb
    simpa using hne b hb
  rw [hnone]
  rfl

/-- Witness for C4 (amended) on a concrete two-element store: an exact-match
search returns the matching record, and the empty-string search returns the
default record. -/
theorem search_first_match_witness :
    store2.Search "002" = sampleBid2 ∧ store2.Search "" = emptyBid := by
  have h := search_first_match store2 [(0, sampleBid1), (1, sampleBid2)]
    (by decide)
  exact ⟨(h.1 "002").trans (by decide), h.2 (by decide)⟩

/-- C5: the bool-returning `Remove` of the repository's test-mirror class
returns true exactly when some node's identifier equalled the id (and that
node was unlinked: the size drops by one); it returns false — leaving the
store untouched — when no node matched. -/
theorem remove_returns_occurrence (l : LL) (elems : List (Nat × Bid))
    (bidId : String) (h : Inv l elems) :
    (l.RemoveT bidId).2 = hasMatch bidId elems ∧
    ((l.RemoveT bidId).2 = true → (l.RemoveT bidId).1.size = l.size - 1) ∧
    ((l.RemoveT bidId).2 = false → (l.RemoveT bidId).1 = l) := by
  have hs := @RemoveT_spec l elems bidId h
  refine ⟨hs.2, ?_, ?_⟩
  · intro htrue
    have hmatch : hasMatch bidId elems = true := by rw [← hs.2]; exact htrue
    obtain ⟨r1, x, xb, r2, hdec, hns, hxb⟩ := hasMatch_split hmatch
    have hlen : (removeFirst bidId elems).length + 1 = elems.length := by
      subst hdec
      rw [removeFirst_split hns hxb]
      simp
      omega
    have h1 := hs.1.2.1
    have h2 := h.2.1
    rw [h1, h2]
    omega
  · intro hfalse
    have hmatch : hasMatch bidId elems = false := by rw [← hs.2]; exact hfalse
    rw [RemoveT_false h hmatch]

/-- Witness for C5: on a concrete store, removing a present id returns true
with the size decremented, and removing an absent id returns false with the
store unchanged. -/
theorem remove_returns_occurrence_witness :
    (store2.RemoveT "001").2 = true ∧
    (store2.RemoveT "001").1.size = store2.size - 1 ∧
    (store2.RemoveT "999").2 = false ∧
    (store2.RemoveT "999").1 = store2 := by
  have h1 := remove_returns_occurrence store2 [(0, sampleBid1), (1, sampleBid2)]
    "001" (by decide)
  have h9 := remove_returns_occurrence store2 [(0, sampleBid1), (1, sampleBid2)]
    "999" (by decide)
  refine ⟨h1.1.trans (by decide), h1.2.1 (h1.1.trans (by decide)),
    h9.1.trans (by decide), h9.2.2 (h9.1.trans (by decide))⟩

/-- C6 counterexample: a store holding two records with identifier "001" is
reachable through the public interface; `Search("001")` succeeds, the first
`Remove("001")` returns true, and the second `Remove("001")` also returns
true — not false as the claim states. -/
theorem remove_twice_counterexample :
    (dupStore.SearchT "001").isSome = true ∧
    (dupStore.RemoveT "001").2 = true ∧
    ((dupStore.RemoveT "001").1.RemoveT "001").2 = true := by
  decide

/-- C6 (amended): on a store holding at most one record with the given
identifier, when `Search(id)` succeeds the first `Remove(id)` returns true
and a second `Remove(id)` on the resulting store returns false. -/
theorem remove_after_search (l : LL) (elems : List (Nat × Bid))
    (bidId : String) (h : Inv l elems)
    (huniq : countMatches bidId elems ≤ 1)
    (hfound : (l.SearchT bidId).isSome = true) :
    (l.RemoveT bidId).2 = true ∧
    ((l.RemoveT bidId).1.RemoveT bidId).2 = false := by
  have hs := @RemoveT_spec l elems bidId h
  have hm : hasMatch bidId elems = true := by
    rw [← SearchT_spec h]; exact hfound
  constructor
  · rw [hs.2]; exact hm
  · have hs2 := @RemoveT_spec _ _ bidId hs.1
    rw [hs2.2]
    have hc := countMatches_removeFirst hm
    have hcm : countMatches bidId elems ≠ 0 := hasMatch_iff_countMatches.mp hm
    have hzero : countMatches bidId (removeFirst bidId elems) = 0 := by omega
    cases hmm : hasMatch bidId (removeFirst bidId elems) with
    | false => rfl
    | true => exact absurd hzero (hasMatch_iff_countMatches.mp hmm)

/-- Witness for C6 (amended) on a concrete store with unique identifiers. -/
theorem remove_after_search_witness :
    (store2.RemoveT "002").2 = true ∧
    ((store2.RemoveT "002").1.RemoveT "002").2 = false :=
  remove_after_search store2 [(0, sampleBid1), (1, sampleBid2)] "002"
    (by decide) (by decide) (by decide)

/-- C10: `Append` inserts unconditionally — for every store satisfying the
representation invariant it adds the record at the end of the reachable
chain and of the traversal, with no test on the identifier — and a store
holding two records with the same identifier is reachable through the public
interface, so the Record Store itself never enforces identifier uniqueness
(the only duplicate check sits in the excluded menu layer, before `Append`
is called). -/
theorem append_never_checks_duplicates :
    (∀ (l : LL) (elems : List (Nat × Bid)) (b : Bid), Inv l elems →
      Inv (l.Append b) (elems ++ [(l.cells.length, b)]) ∧
      (l.Append b).Traverse = l.Traverse ++ [b]) ∧
    (∃ l : LL, Reachable l ∧ (l.Traverse).map Bid.bidId = ["001", "001"]) := by
  constructor
  · intro l elems b h
    refine ⟨Inv_append h, ?_⟩
    rw [Traverse_spec (Inv_append h), Traverse_spec h]
    simp
  · refine ⟨dupStore, Reachable.append dupB (Reachable.append dupA
      Reachable.empty), ?_⟩
    decide

/-- Witness for C10: appending a record whose identifier already occurs in
the store succeeds and places it at the end of the traversal. -/
theorem append_never_checks_duplicates_witness :
    Inv ((LL.empty.Append dupA).Append dupB)
      ([(0, dupA)] ++ [((LL.empty.Append dupA).cells.length, dupB)]) ∧
    ((LL.empty.Append dupA).Append dupB).Traverse
      = (LL.empty.Append dupA).Traverse ++ [dupB] :=
  append_never_checks_duplicates.1 (LL.empty.Append dupA) [(0, dupA)] dupB
    (by decide)

end BidApp

namespace Csv

theorem toList_asString (l : List Char) : (List.asString l).toList = l := rfl

theorem asString_toList (s : String) : s.toList.asString = s := rfl

theorem asString_ne_empty {l : List Char} (h : l ≠ []) : l.asString ≠ "" := by
  intro he
  apply h
  have := congrArg String.toList he
  simpa [toList_asString] using this

theorem tokenizeLine_empty (delim : Char) : tokenizeLine delim "" = some [""] := rfl

theorem tokAux_unq_end {delim : Char} :
    ∀ (cs cur : List Char) (acc : List String), (∀ c ∈ cs, c ≠ delim) →
      tokAux delim TokMode.unq cur acc cs
        = some (((cur.reverse ++ cs).asString :: acc).reverse) := by
  intro cs
  induction cs with
  | nil => intro cur acc h; simp [tokAux]
  | cons c cs' ih =>
    intro cur acc h
    have hc : ¬ c = delim := h c (List.mem_cons_self _ _)
    simp only [tokAux]
    rw [if_neg hc, ih (c :: cur) acc (fun d hd => h d (List.mem_cons_of_mem _ hd))]
    simp

theorem tokAux_unq_delim {delim : Char} :
    ∀ (cs cur : List Char) (acc : List String) (tail : List Char),
      (∀ c ∈ cs, c ≠ delim) →
      tokAux delim TokMode.unq cur acc (cs ++ delim :: tail)
        = tokAux delim TokMode.start [] ((cur.reverse ++ cs).asString :: acc) tail := by
  intro cs
  induction cs with
  | nil =>
    intro cur acc tail h
    simp only [List.nil_append, tokAux]
    simp
  | cons c cs' ih =>
    intro cur acc tail h
    have hc : ¬ c = delim := h c (List.mem_cons_self _ _)
    simp only [List.cons_append, tokAux, List.append_eq]
    rw [if_neg hc, ih (c :: cur) acc tail
      (fun d hd => h d (List.mem_cons_of_mem _ hd))]
    simp

theorem tokAux_quo_escape {delim : Char} :
    ∀ (f cur : List Char) (acc : List String) (tail : List Char),
      tokAux delim TokMode.quo cur acc (escapeChars f ++ '"' :: tail)
        = tokAux delim TokMode.qq (f.reverse ++ cur) acc tail := by
  intro f
  induction f with
  | nil =>
    intro cur acc tail
    simp [escapeChars, tokAux]
  | cons c f' ih =>
    intro cur acc tail
    by_cases hc : c = '"'
    · subst hc
      have hesc : escapeChars ('"' :: f') = '"' :: '"' :: escapeChars f' := by
        simp [escapeChars]
      rw [hesc]
      simp only [List.cons_append, tokAux, List.append_eq, if_true]
      rw [ih ('"' :: cur) acc tail]
      simp
    · have hesc : escapeChars (c :: f') = c :: escapeChars f' := by
        simp [escapeChars, hc]
      rw [hesc]
      simp only [List.cons_append, tokAux, List.append_eq]
      rw [if_neg hc, ih (c :: cur) acc tail]
      simp

theorem needsQuote_false {delim : Char} {f : List Char}
    (h : needsQuote delim f = false) :
    ∀ c ∈ f, ¬ c = delim ∧ ¬ c = '"' := by
  rw [needsQuote, List.any_eq_false] at h
  intro c hc
  have := h c hc
  simp at this
  exact this.1

theorem tokAux_field_end {delim : Char} :
    ∀ (f : List Char) (acc : List String),
      tokAux delim TokMode.start [] acc (serializeFieldChars delim f)
        = some ((f.asString :: acc).reverse) := by
  intro f acc
  rw [serializeFieldChars]
  cases hq : needsQuote delim f with
  | true =>
    simp only [if_true]
    simp only [List.cons_append, tokAux, if_true, List.append_eq]
    rw [tokAux_quo_escape f [] acc []]
    simp [tokAux]
  | false =>
    rw [if_neg Bool.false_ne_true]
    cases f with
    | nil => simp [tokAux]
    | cons c f' =>
      have hc := needsQuote_false hq c (List.mem_cons_self _ _)
      simp only [tokAux]
      rw [if_neg hc.2, if_neg hc.1,
        tokAux_unq_end f' [c] acc
          (fun d hd2 => (needsQuote_false hq d (List.mem_cons_of_mem _ hd2)).1)]
      simp

theorem tokAux_field_delim {delim : Char} (hd : delim ≠ '"') :
    ∀ (f : List Char) (acc : List String) (tail : List Char),
      tokAux delim TokMode.start [] acc
        (serializeFieldChars delim f ++ delim :: tail)
        = tokAux delim TokMode.start [] (f.asString :: acc) tail := by
  intro f acc tail
  rw [serializeFieldChars]
  cases hq : needsQuote delim f with
  | true =>
    simp only [if_true]
    rw [show ('"' :: escapeChars f ++ ['"']) ++ delim :: tail
        = '"' :: (escapeChars f ++ '"' :: (delim :: tail)) from by simp]
    simp only [tokAux, if_true]
    rw [tokAux_quo_escape f [] acc (delim :: tail)]
    simp only [tokAux]
    rw [if_neg hd]
    simp
  | false =>
    rw [if_neg Bool.false_ne_true]
    cases f with
    | nil =>
      simp only [List.nil_append, tokAux]
      rw [if_neg hd]
      simp
    | cons c f' =>
      have hc := needsQuote_false hq c (List.mem_cons_self _ _)
      simp only [List.cons_append, tokAux, List.append_eq]
      rw [if_neg hc.2, if_neg hc.1,
        tokAux_unq_delim f' [c] acc tail
          (fun d hd2 => (needsQuote_false hq d (List.mem_cons_of_mem _ hd2)).1)]
      simp

theorem tokAux_row {delim : Char} (hd : delim ≠ '"') :
    ∀ (fs : List (List Char)) (acc : List String), fs ≠ [] →
      tokAux delim TokMode.start [] acc (serializeRowChars delim fs)
        = some (acc.reverse ++ fs.map List.asString) := by
  intro fs
  induction fs with
  | nil => intro acc h; exact absurd rfl h
  | cons f fs' ih =>
    intro acc h
    cases fs' with
    | nil =>
      simp only [serializeRowChars]
      rw [tokAux_field_end f acc]
      simp
    | cons g fs'' =>
      simp only [serializeRowChars]
      rw [tokAux_field_delim hd f acc _, ih (f.asString :: acc) (by simp)]
      simp

theorem tokenizeLine_serializeRow {delim : Char} (hd : delim ≠ '"')
    (r : List String) (hr : r ≠ []) :
    tokenizeLine delim (serializeRow delim r) = some r := by
  rw [tokenizeLine, serializeRow, toList_asString,
    tokAux_row hd (r.map String.toList) [] (by simpa using hr)]
  simp only [List.reverse_nil, List.nil_append, List.map_map]
  rw [show (List.asString ∘ String.toList) = id from funext asString_toList,
    List.map_id]

theorem tokAux_out_length {delim : Char} :
    ∀ (input : List Char) (mode : TokMode) (cur : List Char)
      (acc out : List String),
      tokAux delim mode cur acc input = some out →
      acc.length < out.length := by
  intro input
  induction input with
  | nil =>
    intro mode cur acc out h
    cases mode <;> simp only [tokAux, Option.some_inj] at h
    case quo => cases h
    all_goals
      rw [← h]
      simp only [List.length_reverse, List.length_cons]
      omega
  | cons c rest ih =>
    intro mode cur acc out h
    cases mode with
    | start =>
      simp only [tokAux] at h
      split at h
      · exact ih _ _ _ _ h
      · split at h
        · have := ih _ _ _ _ h
          simp only [List.length_cons] at this
          omega
        · exact ih _ _ _ _ h
    | unq =>
      simp only [tokAux] at h
      split at h
      · have := ih _ _ _ _ h
        simp only [List.length_cons] at this
        omega
      · exact ih _ _ _ _ h
    | quo =>
      simp only [tokAux] at h
      split at h
      · exact ih _ _ _ _ h
      · exact ih _ _ _ _ h
    | qq =>
      simp only [tokAux] at h
      split at h
      · exact ih _ _ _ _ h
      · split at h
        · have := ih _ _ _ _ h
          simp only [List.length_cons] at this
          omega
        · exact ih _ _ _ _ h
    | tl =>
      simp only [tokAux] at h
      split at h
      · have := ih _ _ _ _ h
        simp only [List.length_cons] at this
        omega
      · exact ih _ _ _ _ h

theorem tokenizeLine_ne_nil {delim : Char} {line : String}
    {fs : List String} (h : tokenizeLine delim line = some fs) : fs ≠ [] := by
  have := tokAux_out_length line.toList TokMode.start [] [] fs h
  intro he
  rw [he] at this
  simp at this

theorem serializeRowChars_ne_nil {delim : Char} {fs : List (List Char)}
    (h1 : fs ≠ []) (h2 : fs ≠ [[]]) : serializeRowChars delim fs ≠ [] := by
  cases fs with
  | nil => exact absurd rfl h1
  | cons f fs' =>
    cases fs' with
    | nil =>
      have hf : f ≠ [] := by
        intro he
        rw [he] at h2
        exact h2 rfl
      simp only [serializeRowChars, serializeFieldChars]
      split
      · simp
      · exact hf
    | cons g fs'' =>
      simp only [serializeRowChars]
      simp

theorem serializeRow_ne_empty {delim : Char} {r : List String}
    (h1 : r ≠ []) (h2 : r ≠ [""]) : serializeRow delim r ≠ "" := by
  apply asString_ne_empty
  apply serializeRowChars_ne_nil
  · simpa using h1
  · intro he
    cases r with
    | nil => simp at he
    | cons s r' =>
      cases r' with
      | nil =>
        simp at he
        apply h2
        have hs : s = "" := by
          have h2 := congrArg List.asString he
          exact Eq.trans (asString_toList s).symm h2
        rw [hs]
      | cons s2 r'' => simp at he

theorem loadRows_serialize {delim : Char} (hd : delim ≠ '"') :
    ∀ (rows : List (List String)) (n : Nat),
      (∀ r ∈ rows, r ≠ [] ∧ r ≠ [""]) →
      loadRows delim n (rows.map (serializeRow delim)) = .ok rows := by
  intro rows
  induction rows with
  | nil => intro n h; rfl
  | cons r rows' ih =>
    intro n h
    obtain ⟨hr1, hr2⟩ := h r (List.mem_cons_self _ _)
    simp only [List.map_cons, loadRows]
    rw [if_neg (serializeRow_ne_empty hr1 hr2),
      tokenizeLine_serializeRow hd r hr1,
      ih (n + 1) (fun x hx => h x (List.mem_cons_of_mem _ hx))]
    rfl

theorem loadRows_rows_ne_nil {delim : Char} :
    ∀ (lines : List String) (n : Nat) (rows : List (List String)),
      loadRows delim n lines = .ok rows → ∀ r ∈ rows, r ≠ [] := by
  intro lines
  induction lines with
  | nil =>
    intro n rows h r hr
    simp only [loadRows] at h
    rw [show (Except.ok [] : Except LoadError (List (List String)))
        = .ok rows ↔ [] = rows from by constructor <;> (intro hh; cases hh; rfl)] at h
    rw [← h] at hr
    cases hr
  | cons line rest ih =>
    intro n rows h r hr
    simp only [loadRows] at h
    split at h
    · exact ih _ _ h r hr
    · cases htok : tokenizeLine delim line with
      | none => rw [htok] at h; cases h
      | some fs =>
        rw [htok] at h
        cases hrec : loadRows delim (n + 1) rest with
        | error e => rw [hrec] at h; cases h
        | ok rows' =>
          rw [hrec] at h
          simp only [Except.map] at h
          cases h
          rcases List.mem_cons.mp hr with hh | hh
          · rw [hh]
            exact tokenizeLine_ne_nil htok
          · exact ih _ _ hrec r hh

theorem loadRows_error_of_bad {delim : Char} :
    ∀ (lines : List String) (n : Nat),
      (∃ s ∈ lines, s ≠ "" ∧ tokenizeLine delim s = none) →
      ∃ i raw, loadRows delim n lines = .error (.parseError i raw) ∧
        raw ∈ lines ∧ raw ≠ "" ∧ tokenizeLine delim raw = none := by
  intro lines
  induction lines with
  | nil =>
    intro n h
    obtain ⟨s, hs, -⟩ := h
    cases hs
  | cons line rest ih =>
    intro n h
    by_cases hbl : line = ""
    · have hrest : ∃ s ∈ rest, s ≠ "" ∧ tokenizeLine delim s = none := by
        obtain ⟨s, hs, hne, htok⟩ := h
        rcases List.mem_cons.mp hs with hh | hh
        · exact absurd (hh.trans hbl) hne
        · exact ⟨s, hh, hne, htok⟩
      obtain ⟨i, raw, heq, hmem, hne, htok⟩ := ih (n + 1) hrest
      refine ⟨i, raw, ?_, List.mem_cons_of_mem _ hmem, hne, htok⟩
      simp only [loadRows, if_pos hbl]
      exact heq
    · cases htok : tokenizeLine delim line with
      | none =>
        refine ⟨n, line, ?_, List.mem_cons_self _ _, hbl, htok⟩
        simp only [loadRows, if_neg hbl, htok]
      | some fs =>
        have hrest : ∃ s ∈ rest, s ≠ "" ∧ tokenizeLine delim s = none := by
          obtain ⟨s, hs, hne, htok2⟩ := h
          rcases List.mem_cons.mp hs with hh | hh
          · rw [hh] at htok2
            rw [htok2] at htok
            cases htok
          · exact ⟨s, hh, hne, htok2⟩
        obtain ⟨i, raw, heq, hmem, hne, htok2⟩ := ih (n + 1) hrest
        refine ⟨i, raw, ?_, List.mem_cons_of_mem _ hmem, hne, htok2⟩
        simp only [loadRows, if_neg hbl, htok, heq, Except.map]

/-- C7 (spec-modelled): whenever loading a file fails — the path cannot be
opened, or a non-blank line is malformed — the failure is returned to the
immediate caller as an explicit `LoadError`, never swallowed: an unopenable
path yields the file error, a malformed line yields a parse error carrying
that line's raw text, and the record loader propagates the error so the
caller's store receives no partially loaded rows or records.  The scenario:
a file whose second line has an unterminated quote fails with a parse error
identifying line 2. -/
theorem load_failure_surfaced :
    (∀ (cfg : LoadCfg) (file : Option (List String)) (l : BidApp.LL)
        (e : LoadError), Load ',' file = .error e →
        loadRecords cfg file l = .error e) ∧
    (Load ',' none = .error .fileError) ∧
    (∀ (delim : Char) (lines : List String),
        (∃ s ∈ lines, s ≠ "" ∧ tokenizeLine delim s = none) →
        ∃ i raw, Load delim (some lines) = .error (.parseError i raw) ∧
          raw ∈ lines ∧ raw ≠ "" ∧ tokenizeLine delim raw = none) ∧
    (Load ',' (some ["bidder,amount", "\"Acme, Inc"])
      = .error (.parseError 2 "\"Acme, Inc")) := by
  refine ⟨?_, rfl, ?_, rfl⟩
  · intro cfg file l e he
    simp only [loadRecords, he]
  · intro delim lines hbad
    cases lines with
    | nil =>
      obtain ⟨s, hs, -⟩ := hbad
      cases hs
    | cons h0 rest =>
      cases htok : tokenizeLine delim h0 with
      | none =>
        have hne : h0 ≠ "" := by
          intro he
          rw [he, tokenizeLine_empty] at htok
          cases htok
        exact ⟨1, h0, by simp [Load, htok], List.mem_cons_self _ _, hne, htok⟩
      | some hdr =>
        have hrest : ∃ s ∈ rest, s ≠ "" ∧ tokenizeLine delim s = none := by
          obtain ⟨s, hs, hne, htok2⟩ := hbad
          rcases List.mem_cons.mp hs with hh | hh
          · rw [hh, htok] at htok2
            cases htok2
          · exact ⟨s, hh, hne, htok2⟩
        obtain ⟨i, raw, heq, hmem, hne, htok2⟩ :=
          loadRows_error_of_bad rest 2 hrest
        refine ⟨i, raw, ?_, List.mem_cons_of_mem _ hmem, hne, htok2⟩
        simp [Load, htok, heq, Except.map]

/-- Witness for C7: an unopenable file propagates the file error through the
record loader, so the caller's store receives nothing. -/
theorem load_failure_surfaced_witness :
    loadRecords sampleCfg none BidApp.LL.empty = .error .fileError :=
  load_failure_surfaced.1 sampleCfg none BidApp.LL.empty .fileError rfl

/-- The loader parses the amount cell `$1200.50` to the rational 1200.50. -/
theorem roadwork_amount : strToDouble "$1200.50" '$' = (1200.50 : ℚ) := by
  have h1 : strToDouble "$1200.50" '$' = mkRat 120050 100 := by decide
  rw [h1, Rat.mkRat_eq_div]
  norm_num

/-- C8 (spec-modelled): loading the three-line file with header
`title,id,fund,amount` under the column configuration id=1, title=0, tag=2,
amount=3 with strip character `$` yields exactly one record with identifier
"98109", title "Roadwork", tag "GEN" and amount 1200.50; the four column
indices and the strip character are plain configuration of the loader — the
same file under the swapped configuration yields the swapped record. -/
theorem load_roadwork_scenario :
    (loadRecords sampleCfg (some roadworkFile) BidApp.LL.empty).map
        BidApp.LL.Traverse
      = .ok [{ bidId := "98109", title := "Roadwork", fund := "GEN",
               amount := (1200.50 : ℚ) }] ∧
    (loadRecords swappedCfg (some roadworkFile) BidApp.LL.empty).map
        BidApp.LL.Traverse
      = .ok [{ bidId := "Roadwork", title := "98109", fund := "GEN",
               amount := (1200.50 : ℚ) }] := by
  have ha : (1200.50 : ℚ) = strToDouble "$1200.50" '$' := roadwork_amount.symm
  constructor <;> (rw [ha]; rfl)

/-- C9 counterexample: the two-line file whose data row is the quoted empty
field loads successfully to the row table `[[""]]`, but its serialization
renders that row as a fully blank line, which the loader skips on reparse —
the reparsed row table is empty, not the original one. -/
theorem serialize_roundtrip_counterexample :
    Load ',' (some ["h", "\"\""])
      = .ok ({ header := ["h"], rows := [[""]] } : DocModel) ∧
    Load ',' (some (Serialize ','
        ({ header := ["h"], rows := [[""]] } : DocModel)))
      = .ok ({ header := ["h"], rows := [] } : DocModel) :=
  ⟨rfl, rfl⟩

/-- C9 (amended): for every file that `Load` parses successfully, as long as
no data row is the single-empty-field row (whose serialization is a blank
line, skipped on reparse), reparsing the `Serialize` output of the loaded
Document Model restores exactly the original model — including files with
quoted fields containing the delimiter, which are re-quoted on
serialization. -/
theorem serialize_load_roundtrip (delim : Char) (lines : List String)
    (m : DocModel) (hd : delim ≠ '"')
    (hload : Load delim (some lines) = .ok m)
    (hrows : ∀ r ∈ m.rows, r ≠ [""]) :
    Load delim (some (Serialize delim m)) = .ok m := by
  cases lines with
  | nil => cases hload
  | cons h0 rest =>
    simp only [Load] at hload
    cases htok : tokenizeLine delim h0 with
    | none => rw [htok] at hload; cases hload
    | some hdr =>
      rw [htok] at hload
      cases hrows0 : loadRows delim 2 rest with
      | error e => rw [hrows0] at hload; cases hload
      | ok rs =>
        rw [hrows0] at hload
        simp only [Except.map] at hload
        cases hload
        have hhdr_ne : hdr ≠ [] := tokenizeLine_ne_nil htok
        have hrne : ∀ r ∈ rs, r ≠ [] := loadRows_rows_ne_nil rest 2 rs hrows0
        have hh := tokenizeLine_serializeRow hd hdr hhdr_ne
        simp only [Serialize, Load, hh]
        rw [loadRows_serialize hd rs 2 (fun r hr => ⟨hrne r hr, hrows r hr⟩)]
        rfl

/-- Witness for C9 (amended): the Acme file with a quoted field containing
the delimiter round-trips to the identical Document Model. -/
theorem serialize_load_roundtrip_witness :
    Load ','
        (some (Serialize ','
          ({ header := ["name", "title", "amount"],
             rows := [["Acme, Inc", "Bid 1", "100.00"]] } : DocModel)))
      = .ok ({ header := ["name", "title", "amount"],
               rows := [["Acme, Inc", "Bid 1", "100.00"]] } : DocModel) :=
  serialize_load_roundtrip ','
    ["name,title,amount", "\"Acme, Inc\",\"Bid 1\",100.00"]
    ({ header := ["name", "title", "amount"],
       rows := [["Acme, Inc", "Bid 1", "100.00"]] } : DocModel)
    (by decide) rfl (by decide)
